import Mathlib

/-!
# Verification of the bam2tcc core against its specification

A shallow embedding of the functions in `src/sam_io.cpp`, `src/kallisto_util.cpp`
and `src/main.cpp` of the bam2tcc repository, together with theorems settling the
behavioural claims about them.

Conventions of the embedding:

* SAM/BAM alignment records become the structure `BamRec`; only the fields the
  core reads (`qName`, the `unmapped` / `reverse complement` / `last segment`
  flags, `rID`, `rNextId`, `beginPos`, `cigar`) are modelled.
* C++ `std::vector` loops become `List` recursions or folds in the same
  iteration order; in-place mutation becomes explicit state passing.
* `uint64_t` counters are `Nat` with explicit `% 2 ^ 64` where the source relies
  on unsigned wrap-around (`transcript_count` starts at `(uint64_t) -1`).
* `unordered_map` / `set` containers are association lists in insertion order
  with `emplace` (insert-if-absent) semantics.  Where the source iterates an
  `unordered_map` (whose order is unspecified) the model iterates in insertion
  order; theorems that depend on this are stated so that the conclusion does not
  depend on the chosen order, or the dependence is noted.
* Fallible or undefined behaviour (out-of-bounds `operator[]`) is `Option`.
* The source is compiled with `GENOMEBAM_DEBUG = 1` and `DEBUG = 0`
  (`src/sam_io.cpp` lines 16-17); the embedding models the code that is actually
  compiled under those flags.
-/

/-! ## Generic list lemmas -/

theorem length_dropWhile_le {α : Type} (p : α → Bool) (l : List α) :
    (l.dropWhile p).length ≤ l.length := by
  induction l with
  | nil => simp
  | cons x xs ih =>
    by_cases h : p x
    · rw [List.dropWhile_cons, if_pos h]
      exact Nat.le_succ_of_le ih
    · rw [List.dropWhile_cons, if_neg h]

theorem dropWhile_eq_drop_length_takeWhile {α : Type} (p : α → Bool) (l : List α) :
    l.dropWhile p = l.drop (l.takeWhile p).length := by
  induction l with
  | nil => rfl
  | cons x xs ih =>
    by_cases h : p x
    · simp [List.dropWhile_cons, List.takeWhile_cons, h, ih]
    · simp [List.dropWhile_cons, List.takeWhile_cons, h]

theorem head_dropWhile_false {α : Type} (p : α → Bool) (l : List α) (x : α) (xs : List α)
    (h : l.dropWhile p = x :: xs) : p x = false := by
  induction l with
  | nil => simp at h
  | cons y ys ih =>
    by_cases hy : p y
    · rw [List.dropWhile_cons, if_pos hy] at h
      exact ih h
    · rw [List.dropWhile_cons, if_neg hy] at h
      cases h
      exact Bool.eq_false_iff.mpr hy

theorem dropWhile_nil_of_all {α : Type} (p : α → Bool) (l : List α)
    (h : ∀ x ∈ l, p x = true) : l.dropWhile p = [] := by
  induction l with
  | nil => rfl
  | cons y ys ih =>
    rw [List.dropWhile_cons, if_pos (h y (by simp))]
    exact ih fun x hx => h x (by simp [hx])

theorem takeWhile_all_of_all {α : Type} (p : α → Bool) (l : List α)
    (h : ∀ x ∈ l, p x = true) : l.takeWhile p = l := by
  induction l with
  | nil => rfl
  | cons y ys ih =>
    rw [List.takeWhile_cons, if_pos (h y (by simp))]
    exact congrArg (y :: ·) (ih fun x hx => h x (by simp [hx]))

theorem dropWhile_congr_mem {α : Type} (p q : α → Bool) (l : List α)
    (h : ∀ x ∈ l, p x = q x) : l.dropWhile p = l.dropWhile q := by
  induction l with
  | nil => rfl
  | cons y ys ih =>
    have hy := h y (by simp)
    by_cases hp : p y
    · rw [List.dropWhile_cons, if_pos hp, List.dropWhile_cons, if_pos (hy ▸ hp)]
      exact ih fun x hx => h x (by simp [hx])
    · rw [List.dropWhile_cons, if_neg hp, List.dropWhile_cons, if_neg (hy ▸ hp)]

theorem dropWhile_dropWhile_of_imp {α : Type} (p q : α → Bool) (l : List α)
    (h : ∀ x, p x = true → q x = true) :
    (l.dropWhile p).dropWhile q = l.dropWhile q := by
  induction l with
  | nil => rfl
  | cons y ys ih =>
    by_cases hp : p y
    · rw [List.dropWhile_cons, if_pos hp, ih, List.dropWhile_cons, if_pos (h y hp)]
    · rw [List.dropWhile_cons, if_neg hp]

theorem length_takeWhile_add_dropWhile {α : Type} (p : α → Bool) (l : List α) :
    (l.takeWhile p).length + (l.dropWhile p).length = l.length := by
  induction l with
  | nil => rfl
  | cons x xs ih =>
    by_cases h : p x
    · rw [List.takeWhile_cons, if_pos h, List.dropWhile_cons, if_pos h]
      simpa [Nat.succ_add] using ih
    · rw [List.takeWhile_cons, if_neg h, List.dropWhile_cons, if_neg h]
      simp

/-! ## Core data model

`BamRec` is the shallow embedding of `seqan::BamAlignmentRecord` restricted to
the fields that `src/sam_io.cpp` reads.  `Exon` mirrors the `Exon` struct of
`structs.hpp` (not under `src/`, but its shape — `start`, `end`, a transcript
list reached through a pointer — is fully determined by its uses in
`src/sam_io.cpp`); the C++ `vector<int> *transcripts` becomes a plain list. -/

structure BamRec where
  qName : String
  flagUnmapped : Bool
  flagRC : Bool
  flagLast : Bool
  rID : Int
  rNextId : Int
  beginPos : Int
  cigar : List (Char × Nat)
deriving DecidableEq, Inhabited, Repr

structure Exon where
  start : Int
  stop : Int
  transcripts : List Int
deriving DecidableEq, Inhabited, Repr

/-- Modelled from the spec: `lower` lives in `util.hpp`/`util.cpp`, which is not
under `src/`; per the spec all lookups case-fold, so it is ASCII lower-casing
(written character by character so that the kernel can evaluate it). -/
def lower (s : String) : String := ⟨s.data.map Char.toLower⟩

/-! ## CIGAR splitter (`get_alignment_exon_positions`, sam_io.cpp 104-126)

The C++ loop keeps mutable `start`/`end` cursors; the embedding threads them
through a recursion over the CIGAR operation list.  The trailing
`exons.push_back(Exon(start, end))` becomes the base case. -/

def gaepGo (start stop : Int) : List (Char × Nat) → List Exon
  | [] => [⟨start, stop, []⟩]
  | (op, len) :: rest =>
    if op = 'M' ∨ op = 'D' ∨ op = '=' ∨ op = 'X' then
      gaepGo start (stop + len) rest
    else if op = 'N' then
      ⟨start, stop, []⟩ :: gaepGo (stop + len) (stop + len) rest
    else
      gaepGo start stop rest

def get_alignment_exon_positions (r : BamRec) : List Exon :=
  gaepGo r.beginPos r.beginPos r.cigar

/-- Modelled from the spec: the §4.1 table for the CIGAR splitter, written as a
recursion on the operation list over `(start, end)` interval pairs.  `M`, `D`,
`=`, `X` advance `end` by the operation length; `N` closes the current interval
`[start, end)` and starts the next one at `end + oplen`; every other operation
leaves the reference coordinates unchanged; the interval in progress is emitted
at the end.  This is the refinement target that `get_alignment_exon_positions`
is compared against. -/
def cigarSplitSpec (start stop : Int) : List (Char × Nat) → List (Int × Int)
  | [] => [(start, stop)]
  | (op, len) :: rest =>
    if op = 'M' ∨ op = 'D' ∨ op = '=' ∨ op = 'X' then
      cigarSplitSpec start (stop + len) rest
    else if op = 'N' then
      (start, stop) :: cigarSplitSpec (stop + len) (stop + len) rest
    else
      cigarSplitSpec start stop rest

theorem gaepGo_spec (ops : List (Char × Nat)) : ∀ s e,
    (gaepGo s e ops).map (fun x => (x.start, x.stop)) = cigarSplitSpec s e ops ∧
      gaepGo s e ops ≠ [] := by
  induction ops with
  | nil => intro s e; constructor <;> simp [gaepGo, cigarSplitSpec]
  | cons op rest ih =>
    intro s e
    obtain ⟨c, len⟩ := op
    by_cases h1 : c = 'M' ∨ c = 'D' ∨ c = '=' ∨ c = 'X'
    · obtain ⟨ih1, ih2⟩ := ih s (e + len)
      exact ⟨by simp [gaepGo, cigarSplitSpec, h1, ih1], by simp [gaepGo, h1, ih2]⟩
    · by_cases h2 : c = 'N'
      · obtain ⟨ih1, _⟩ := ih (e + len) (e + len)
        exact ⟨by simp [gaepGo, cigarSplitSpec, h1, h2, ih1],
          by simp [gaepGo, h1, h2]⟩
      · obtain ⟨ih1, ih2⟩ := ih s e
        exact ⟨by simp [gaepGo, cigarSplitSpec, h1, h2, ih1],
          by simp [gaepGo, h1, h2, ih2]⟩

/-- C8: for every alignment record the CIGAR splitter returns a non-empty list
of reference intervals whose construction follows the spec table: `M`, `D`,
`=`, `X` advance the current interval's end by the operation length, `N` closes
the current interval `[start, end)` and starts the next at `end + oplen`, and
all other operations leave the reference coordinates unchanged
(`get_alignment_exon_positions` refines `cigarSplitSpec`). -/
theorem cigar_splitter_refines_spec (r : BamRec) :
    (get_alignment_exon_positions r).map (fun x => (x.start, x.stop)) =
        cigarSplitSpec r.beginPos r.beginPos r.cigar ∧
      get_alignment_exon_positions r ≠ [] :=
  gaepGo_spec r.cigar r.beginPos r.beginPos

/-! ## Preflight line count (`get_sam_line_count`, sam_io.cpp 62-93)

Only the default (non-SeqAn) branch is modelled: `readSAM` calls
`get_sam_line_count(file)` with `seqan` left at its default `false`.  The file
is a list of its text lines.  The first `while (getline …)` loop consumes lines
until (and including) the first line that is non-empty and does not start with
`'@'`; then `++line_count` runs once unconditionally, and the second loop counts
every remaining line. -/

def isRecordLine (s : String) : Bool := s.length != 0 && s.data.headD '@' != '@'

def afterFirstRecord : List String → List String
  | [] => []
  | l :: rest => if isRecordLine l then rest else afterFirstRecord rest

def get_sam_line_count (lines : List String) : Nat :=
  1 + (afterFirstRecord lines).length

/-- C9 counterexample: on a file consisting of a single header line the
preflight count is `1`, but the file contains `0` alignment records; the claim
that `get_sam_line_count` returns the number of records (and in particular `0`
for a header-only file) is false on the code. -/
theorem line_count_header_only_counterexample :
    get_sam_line_count ["@HD\tVN:1.6"] = 1 ∧
      (List.filter isRecordLine ["@HD\tVN:1.6"]).length = 0 ∧
      get_sam_line_count ["@HD\tVN:1.6"] ≠
        (List.filter isRecordLine ["@HD\tVN:1.6"]).length := by
  refine ⟨rfl, rfl, by decide⟩

theorem afterFirstRecord_append_headers (hs : List String) (r : String) (rest : List String)
    (hh : ∀ l ∈ hs, isRecordLine l = false) (hr : isRecordLine r = true) :
    afterFirstRecord (hs ++ r :: rest) = rest := by
  induction hs with
  | nil => simp [afterFirstRecord, hr]
  | cons a as ih =>
    have ha := hh a (by simp)
    rw [List.cons_append, afterFirstRecord, if_neg (by simp [ha])]
    exact ih fun l hl => hh l (by simp [hl])

/-- C9 amended: `get_sam_line_count` returns one plus the number of lines after
the first non-header line.  This equals the number of alignment records
whenever the file has at least one record and every line after the first record
is itself a record line; for a header-only (or empty) file it returns `1`, not
`0`. -/
theorem get_sam_line_count_records (hs : List String) (r : String) (rest : List String)
    (hh : ∀ l ∈ hs, isRecordLine l = false) (hr : isRecordLine r = true)
    (ht : ∀ l ∈ rest, isRecordLine l = true) :
    get_sam_line_count (hs ++ r :: rest) =
      ((hs ++ r :: rest).filter isRecordLine).length := by
  rw [get_sam_line_count, afterFirstRecord_append_headers hs r rest hh hr]
  have hfh : hs.filter isRecordLine = [] :=
    List.filter_eq_nil_iff.mpr fun l hl => by simp [hh l hl]
  have hft : rest.filter isRecordLine = rest := List.filter_eq_self.mpr ht
  rw [List.filter_append, hfh]
  simp [List.filter_cons, hr, hft, Nat.add_comm]

/-- C9 witness: the amended statement evaluated on a concrete file of one
header line and two records. -/
theorem get_sam_line_count_records_witness :
    get_sam_line_count ["@HD", "read1\t0", "read2\t0"] =
      ((["@HD"] ++ "read1\t0" :: ["read2\t0"]).filter isRecordLine).length :=
  get_sam_line_count_records ["@HD"] "read1\t0" ["read2\t0"]
    (by decide) (by decide) (by decide)

/-! ## Single-alignment EC (`getEC`, sam_io.cpp 175-208)

`std::sort` on `vector<int>` is modelled by an insertion sort on `List Int`
(values are compared, so stability is irrelevant), `std::unique` followed by
`erase` on a sorted vector by removal of consecutive duplicates, and
`std::set_intersection` on two sorted ranges by the standard sorted-merge
intersection, which advances past one copy of each equal element on both sides
and emits the element from the first range. -/

def insertSorted (a : Int) : List Int → List Int
  | [] => [a]
  | b :: rest => if a ≤ b then a :: b :: rest else b :: insertSorted a rest

def sortInts (l : List Int) : List Int := l.foldr insertSorted []

def uniqueConsec : List Int → List Int
  | [] => []
  | [a] => [a]
  | a :: b :: rest =>
    if a = b then uniqueConsec (b :: rest) else a :: uniqueConsec (b :: rest)

def interGo : Nat → List Int → List Int → List Int
  | 0, _, _ => []
  | _ + 1, [], _ => []
  | _ + 1, _ :: _, [] => []
  | fuel + 1, a :: as, b :: bs =>
    if a < b then interGo fuel as (b :: bs)
    else if b < a then interGo fuel (a :: as) bs
    else a :: interGo fuel as bs

/-- `std::set_intersection` on two sorted ranges: each comparison step advances
at least one iterator, so `|as| + |bs|` steps of fuel always suffice and the
fuel never runs out. -/
def set_intersection (as bs : List Int) : List Int :=
  interGo (as.length + bs.length) as bs

/-- `get_alignment_exon_transcripts` (sam_io.cpp 137-158), as compiled with
`GENOMEBAM_DEBUG = 1`: the splice-junction coincidence conditions are
preprocessed away, leaving only the containment test
`read.start >= chrom[i].start && read.end <= chrom[i].end`.  The C++ double
loop runs over chromosome exons outermost and read exons innermost; since each
read exon is updated independently, the embedding maps over the read exons and
collects, in chromosome order, the transcripts of every containing chromosome
exon. -/
def get_alignment_exon_transcripts (chrom : List Exon) (read_exons : List Exon) :
    List Exon :=
  read_exons.map fun re =>
    { re with
      transcripts := re.transcripts ++
        (chrom.filter fun ce => decide (re.start ≥ ce.start) &&
          decide (re.stop ≤ ce.stop)).bind fun ce => ce.transcripts }

/-- `seqan::contigNames(cont)[rec.rID]`: the BAM context is the list of contig
names indexed by `rID`.  A negative or out-of-range `rID` is undefined
behaviour in the source; the model returns `""` there. -/
def contigName (cont : List String) (rid : Int) : String :=
  cont.getD rid.toNat ""

def getEC (exons : List (String × List Exon)) (cont : List String) (rec : BamRec) :
    List Int :=
  match exons.lookup (lower (contigName cont rec.rID)) with
  | none => []
  | some chrom =>
    match get_alignment_exon_transcripts chrom (get_alignment_exon_positions rec) with
    | [] => []
    | re0 :: rest =>
      let inter :=
        rest.foldl (fun acc re => set_intersection acc (sortInts re.transcripts))
          (sortInts re0.transcripts)
      uniqueConsec inter

/-- C5 counterexample: an alignment whose CIGAR has no reference-consuming
operation (a single soft clip `5S`) at position 10 of a contig whose annotation
has an exon `[0, 100]` carrying transcript 0.  The degenerate read interval is
`[10, 10)`, which still satisfies `start >= e.start && end <= e.end`, so
`getEC` returns `[0]`, not the empty list claimed. -/
theorem getEC_degenerate_nonempty_counterexample :
    getEC [("chr1", [⟨0, 100, [0]⟩])] ["chr1"]
        { qName := "r1", flagUnmapped := false, flagRC := false, flagLast := false,
          rID := 0, rNextId := 0, beginPos := 10, cigar := [('S', 5)] } = [0] ∧
      ([0] : List Int) ≠ [] := by
  exact ⟨by decide, by decide⟩

theorem gaepGo_no_ref_ops (ops : List (Char × Nat)) (p : Int)
    (h : ∀ x ∈ ops, x.1 ≠ 'M' ∧ x.1 ≠ 'D' ∧ x.1 ≠ '=' ∧ x.1 ≠ 'X' ∧ x.1 ≠ 'N') :
    gaepGo p p ops = [⟨p, p, []⟩] := by
  induction ops with
  | nil => rfl
  | cons op rest ih =>
    obtain ⟨c, len⟩ := op
    obtain ⟨h1, h2, h3, h4, h5⟩ := h (c, len) (by simp)
    rw [gaepGo, if_neg (by simp [h1, h2, h3, h4]), if_neg (by simp [h5])]
    exact ih fun x hx => h x (by simp [hx])

/-- C5 amended: for an alignment record with no reference-consuming CIGAR
operation, the read reduces to the single empty interval
`[beginPos, beginPos)`, and `getEC` returns the sorted, de-duplicated union of
the transcripts of every chromosome exon `e` with
`e.start ≤ beginPos ∧ beginPos ≤ e.end`; the result is empty only when the
contig is missing from the annotation or no exon contains the position — not
for every such record, as claimed. -/
theorem getEC_no_ref_ops_point_containment (exons : List (String × List Exon))
    (cont : List String) (rec : BamRec)
    (h : ∀ x ∈ rec.cigar, x.1 ≠ 'M' ∧ x.1 ≠ 'D' ∧ x.1 ≠ '=' ∧ x.1 ≠ 'X' ∧ x.1 ≠ 'N') :
    (exons.lookup (lower (contigName cont rec.rID)) = none → getEC exons cont rec = []) ∧
      ∀ chrom, exons.lookup (lower (contigName cont rec.rID)) = some chrom →
        getEC exons cont rec =
          uniqueConsec (sortInts
            ((chrom.filter fun ce => decide (ce.start ≤ rec.beginPos) &&
              decide (rec.beginPos ≤ ce.stop)).bind fun ce => ce.transcripts)) := by
  have hpos : get_alignment_exon_positions rec = [⟨rec.beginPos, rec.beginPos, []⟩] :=
    gaepGo_no_ref_ops rec.cigar rec.beginPos h
  constructor
  · intro hc
    rw [getEC, hc]
  · intro chrom hc
    rw [getEC, hc, hpos]
    simp only [get_alignment_exon_transcripts, List.map_cons, List.map_nil]
    simp only [List.foldl_nil, List.nil_append]

/-- C5 witness: the amended statement evaluated on the counterexample input. -/
theorem getEC_no_ref_ops_point_containment_witness :
    getEC [("chr1", [⟨0, 100, [0]⟩])] ["chr1"]
        { qName := "r1", flagUnmapped := false, flagRC := false, flagLast := false,
          rID := 0, rNextId := 0, beginPos := 10, cigar := [('S', 5)] } =
      uniqueConsec (sortInts
        ((([⟨0, 100, [0]⟩] : List Exon).filter fun ce =>
            decide (ce.start ≤ (10 : Int)) && decide ((10 : Int) ≤ ce.stop)).bind
          fun ce => ce.transcripts)) := by
  exact (getEC_no_ref_ops_point_containment [("chr1", [⟨0, 100, [0]⟩])] ["chr1"]
    { qName := "r1", flagUnmapped := false, flagRC := false, flagLast := false,
      rID := 0, rNextId := 0, beginPos := 10, cigar := [('S', 5)] } (by decide)).2
    [⟨0, 100, [0]⟩] (by decide)

/-! ## Read EC (`getReadEC`, sam_io.cpp 236-375)

The compiled code (with `GENOMEBAM_DEBUG = 1`, `DEBUG = 0`) is:

* orphan check: `if (paired && (curr[0].size() == 0 || curr[1].size() == 0)) return {};`
* for each segment, a loop over its records that skips `unmapped` records,
  computes `temp` (either `{r->rID}` in rapmap mode or `getEC(...)`) and appends
  it to the forward or reverse accumulator depending on the `RC` flag;
* if both segments produced accumulator contents, the two per-segment unions
  are sorted and intersected (the condition does **not** test `paired`);
* otherwise, segment 1's accumulators are substituted when segment 0's are both
  empty, and the forward/reverse union is taken;
* finally the result is sorted and de-duplicated.

`curr` is the pair of the two segment buckets (`curr[0]`, `curr[1]`). -/

def segmentECs (exons : List (String × List Exon)) (cont : List String)
    (rapmap : Bool) (recs : List BamRec) : List Int × List Int :=
  recs.foldl
    (fun acc r =>
      if r.flagUnmapped then acc
      else
        let temp := if rapmap then [r.rID] else getEC exons cont r
        if r.flagRC then (acc.1, acc.2 ++ temp) else (acc.1 ++ temp, acc.2))
    ([], [])

def getReadEC (exons : List (String × List Exon)) (cont : List String)
    (curr : List BamRec × List BamRec) (rapmap paired : Bool) : List Int :=
  if paired && (curr.1.isEmpty || curr.2.isEmpty) then []
  else
    let ec1 := segmentECs exons cont rapmap curr.1
    let ec2 := segmentECs exons cont rapmap curr.2
    let EC :=
      if (ec1.1 ≠ [] ∨ ec1.2 ≠ []) ∧ (ec2.1 ≠ [] ∨ ec2.2 ≠ []) then
        set_intersection (sortInts (ec1.1 ++ ec1.2)) (sortInts (ec2.1 ++ ec2.2))
      else
        let ec0 := if ec1.1 = [] ∧ ec1.2 = [] then ec2 else ec1
        ec0.1 ++ ec0.2
    uniqueConsec (sortInts EC)

/-- C4 counterexample: with `paired = false` (rapmap mode for concreteness), a
read group whose segment-0 record has alignment EC `[0]` and whose segment-1
record has alignment EC `[1]`.  The claim predicts the union of segment 0's
forward and reverse ECs, `[0]`; the code takes the intersection branch (its
condition does not test `paired`) and returns `[]`. -/
theorem getReadEC_unpaired_intersects_counterexample :
    getReadEC [] []
        ([{ qName := "x", flagUnmapped := false, flagRC := false, flagLast := false,
            rID := 0, rNextId := 0, beginPos := 0, cigar := [] }],
         [{ qName := "x", flagUnmapped := false, flagRC := false, flagLast := true,
            rID := 1, rNextId := 1, beginPos := 0, cigar := [] }])
        true false = [] ∧
      ([] : List Int) ≠ [0] := by
  exact ⟨by decide, by decide⟩

/-- C4 amended: with `paired = false`, the read EC is the sorted de-duplicated
union of segment 0's forward and reverse alignment ECs whenever segment 1
contributes no alignment EC, and the union of segment 1's whenever segment 0
contributes none; but when both segments contribute, `getReadEC` intersects the
two per-segment unions even though `paired` is false (the intersection branch's
condition does not consult `paired`). -/
theorem getReadEC_unpaired_union (exons : List (String × List Exon))
    (cont : List String) (curr : List BamRec × List BamRec) (rapmap : Bool) :
    ((segmentECs exons cont rapmap curr.2).1 = [] →
      (segmentECs exons cont rapmap curr.2).2 = [] →
        getReadEC exons cont curr rapmap false =
          uniqueConsec (sortInts ((segmentECs exons cont rapmap curr.1).1 ++
            (segmentECs exons cont rapmap curr.1).2))) ∧
    ((segmentECs exons cont rapmap curr.1).1 = [] →
      (segmentECs exons cont rapmap curr.1).2 = [] →
        getReadEC exons cont curr rapmap false =
          uniqueConsec (sortInts ((segmentECs exons cont rapmap curr.2).1 ++
            (segmentECs exons cont rapmap curr.2).2))) := by
  constructor
  · intro h1 h2
    rw [getReadEC]
    simp only [Bool.false_and, Bool.false_eq_true, if_false]
    rw [if_neg (by simp [h1, h2])]
    by_cases h0 : (segmentECs exons cont rapmap curr.1).1 = [] ∧
        (segmentECs exons cont rapmap curr.1).2 = []
    · rw [if_pos h0]
      simp [h0.1, h0.2, h1, h2]
    · rw [if_neg h0]
  · intro h1 h2
    rw [getReadEC]
    simp only [Bool.false_and, Bool.false_eq_true, if_false]
    rw [if_neg (by simp [h1, h2]), if_pos ⟨h1, h2⟩]

/-- C4 witness: the first amended case evaluated on a read group whose second
segment bucket is empty; the read EC is the union of segment 0's ECs. -/
theorem getReadEC_unpaired_union_witness :
    getReadEC [] []
        ([{ qName := "x", flagUnmapped := false, flagRC := false, flagLast := false,
            rID := 3, rNextId := 3, beginPos := 0, cigar := [] }], [])
        true false =
      uniqueConsec (sortInts
        ((segmentECs [] [] true
            [{ qName := "x", flagUnmapped := false, flagRC := false, flagLast := false,
               rID := 3, rNextId := 3, beginPos := 0, cigar := [] }]).1 ++
          (segmentECs [] [] true
            [{ qName := "x", flagUnmapped := false, flagRC := false, flagLast := false,
               rID := 3, rNextId := 3, beginPos := 0, cigar := [] }]).2)) := by
  exact (getReadEC_unpaired_union [] []
    ([{ qName := "x", flagUnmapped := false, flagRC := false, flagLast := false,
        rID := 3, rNextId := 3, beginPos := 0, cigar := [] }], []) true).1
    (by decide) (by decide)

/-- C6 counterexample: `paired = true`, segment 0 holds one mapped record with
alignment EC `[0]` (rapmap mode), segment 1 holds one record carrying the
`unmapped` flag.  Segment 1 therefore has no mapped alignment, yet both buckets
are non-empty, so the orphan check does not fire; the unmapped record is merely
skipped, segment 1 contributes no EC, and the code falls into the unpaired
union branch, returning `[0]` instead of the claimed `[]`. -/
theorem getReadEC_paired_all_unmapped_counterexample :
    getReadEC [] []
        ([{ qName := "x", flagUnmapped := false, flagRC := false, flagLast := false,
            rID := 0, rNextId := 0, beginPos := 0, cigar := [] }],
         [{ qName := "x", flagUnmapped := true, flagRC := false, flagLast := true,
            rID := 0, rNextId := 0, beginPos := 0, cigar := [] }])
        true true = [0] ∧
      ([0] : List Int) ≠ [] := by
  exact ⟨by decide, by decide⟩

/-- C6 amended: with `paired = true`, `getReadEC` returns the empty EC whenever
at least one segment *bucket* is empty (the orphan check at sam_io.cpp 254
tests `curr[0].size() == 0 || curr[1].size() == 0`); a non-empty bucket whose
records are all unmapped does not trigger the check, and the read instead
falls through to the union branch with that segment contributing nothing. -/
theorem getReadEC_paired_empty_bucket (exons : List (String × List Exon))
    (cont : List String) (curr : List BamRec × List BamRec) (rapmap : Bool)
    (h : curr.1 = [] ∨ curr.2 = []) :
    getReadEC exons cont curr rapmap true = [] := by
  rw [getReadEC, if_pos]
  rcases h with h | h <;> simp [h]

/-- C6 witness: the amended statement evaluated on a read group with an empty
segment-1 bucket. -/
theorem getReadEC_paired_empty_bucket_witness :
    getReadEC [] []
        ([{ qName := "x", flagUnmapped := false, flagRC := false, flagLast := false,
            rID := 0, rNextId := 0, beginPos := 0, cigar := [] }], [])
        false true = [] := by
  exact getReadEC_paired_empty_bucket [] []
    ([{ qName := "x", flagUnmapped := false, flagRC := false, flagLast := false,
        rID := 0, rNextId := 0, beginPos := 0, cigar := [] }], []) false (Or.inr rfl)

/-! ## Worker sharding and read-group accumulation
    (`readSAMHelp` sam_io.cpp 411-521, `readSAM` sam_io.cpp 523-627)

The canonical read key of a record is its `qName`, or its `qName` with the last
two characters removed when `all_same` is false (C++ `substr(0, size() - 2)`,
which returns the whole string when `size() < 2` because the `size_t` length
wraps and is clamped).

`readSAMHelp`'s nested `while` loops are modelled by the group lists they
process.  Writing `line_count` for the C++ counter, the invariant at the top of
the outer loop is `line_count = (index of the pending record) + 1`; when the
file is exhausted inside the inner loop the counter instead equals
`records + 1`.  `processFrom k e l i` is the outer loop from pending suffix `l`
at record index `i`: while `i + 1 < e` it takes the maximal run of records with
equal key as one read group; if the file ends inside a group, the loop keeps
re-processing the final record as a spurious singleton group until the counter
reaches `e` (SeqAn's `atEnd` breaks the inner loop, but the outer guard only
checks `line_count < end`), which the `List.replicate` term reproduces.

`workerGroups` adds the shard-entry logic: a worker with `end - start <= 1`
returns immediately; a worker with `start = 0` begins at record 0; any other
worker reads `start - 1` records, takes the key of the last one (record
`start - 2`; for `start = 1` no record has been read and the key of the
default-constructed record, the empty string, is used), reads on while the key
matches, and begins at the first non-matching record.  If that skip loop
reaches end of file, the counter is `records`, and the outer loop degenerates
to spurious singleton groups of the last record until the counter reaches
`end`. -/

def canonKey (all_same : Bool) (r : BamRec) : String :=
  if all_same then r.qName
  else if 2 ≤ r.qName.length then r.qName.take (r.qName.length - 2) else r.qName

def runsBy (k : BamRec → String) (l : List BamRec) : List (List BamRec) :=
  match l with
  | [] => []
  | r :: rest =>
    (r :: rest.takeWhile (fun x => k x == k r)) ::
      runsBy k (rest.dropWhile (fun x => k x == k r))
termination_by l.length
decreasing_by simp only [List.length_cons]; exact Nat.lt_succ_of_le (length_dropWhile_le _ _)

def idxRuns (k : BamRec → String) (i : Nat) (l : List BamRec) : List (Nat × List BamRec) :=
  match l with
  | [] => []
  | r :: rest =>
    (i, r :: rest.takeWhile (fun x => k x == k r)) ::
      idxRuns k (i + (r :: rest.takeWhile (fun x => k x == k r)).length)
        (rest.dropWhile (fun x => k x == k r))
termination_by l.length
decreasing_by simp only [List.length_cons]; exact Nat.lt_succ_of_le (length_dropWhile_le _ _)

def processFrom (k : BamRec → String) (e : Nat) (l : List BamRec) (i : Nat) :
    List (List BamRec) :=
  match l with
  | [] => []
  | r :: rest =>
    if i + 1 < e then
      if rest.dropWhile (fun x => k x == k r) = [] then
        (r :: rest.takeWhile (fun x => k x == k r)) ::
          List.replicate (e - (i + (r :: rest.takeWhile (fun x => k x == k r)).length + 1))
            [(r :: rest.takeWhile (fun x => k x == k r)).getLastD default]
      else
        (r :: rest.takeWhile (fun x => k x == k r)) ::
          processFrom k e (rest.dropWhile (fun x => k x == k r))
            (i + (r :: rest.takeWhile (fun x => k x == k r)).length)
    else []
termination_by l.length
decreasing_by simp only [List.length_cons]; exact Nat.lt_succ_of_le (length_dropWhile_le _ _)

def workerGroups (k : BamRec → String) (recs : List BamRec) (start stop : Nat) :
    List (List BamRec) :=
  if stop ≤ start + 1 then []
  else if start = 0 then processFrom k stop recs 0
  else
    let skipKey := if start = 1 then k default else k (recs.getD (start - 2) default)
    let tail := recs.drop (start - 1)
    if tail.dropWhile (fun x => k x == skipKey) = [] then
      List.replicate (stop - recs.length) [recs.getLastD default]
    else
      processFrom k stop (tail.dropWhile (fun x => k x == skipKey))
        (start - 1 + (tail.takeWhile (fun x => k x == skipKey)).length)

/-- The shard ranges launched by `readSAM` (sam_io.cpp 599-611): workers
`j = 0 … nthreads-2` get `[lines/nthreads * j, lines/nthreads * (j+1))` and the
final worker gets `[lines/nthreads * (nthreads-1), lines + 1)`. -/
def shards (lines nthreads : Nat) : List (Nat × Nat) :=
  ((List.range (nthreads - 1)).map
      fun j => (lines / nthreads * j, lines / nthreads * (j + 1))) ++
    [(lines / nthreads * (nthreads - 1), lines + 1)]

/-- The read groups processed across all workers of one file, concatenated in
worker order. -/
def readSAMGroups (all_same : Bool) (recs : List BamRec) (lines nthreads : Nat) :
    List (List BamRec) :=
  ((shards lines nthreads).map
    fun se => workerGroups (canonKey all_same) recs se.1 se.2).flatten

/-! ## Per-group processing and the unmatched-output sink
    (sam_io.cpp 482-519) -/

/-- The record filter and segment bucketing applied while a group is
accumulated (sam_io.cpp 483-496, `GENOMEBAM_DEBUG` branch): a record is kept
unless `paired && rec.rID != rec.rNextId`, and kept records go to bucket 1 when
`hasFlagLast` and to bucket 0 otherwise. -/
def bucketGroup (paired : Bool) (g : List BamRec) : List BamRec × List BamRec :=
  let kept := g.filter fun r => !(paired && !(r.rID == r.rNextId))
  (kept.filter fun r => !r.flagLast, kept.filter fun r => r.flagLast)

/-- The canonical EC string `to_string(EC[0]) + ',' + …` (sam_io.cpp 511-514). -/
def stringEC : List Int → String
  | [] => ""
  | x :: rest => rest.foldl (fun acc i => acc ++ "," ++ toString i) (toString x)

/-- One read group's effect (sam_io.cpp 507-519): the TCC increment it
produces, if any, and the records it appends to the unmatched-output sink.
When the read EC is empty the source's branch body is only the comment
`/* Deal with unmapped output */` — an empty statement — so nothing is ever
appended to the sink. -/
def handleGroup (exons : List (String × List Exon)) (cont : List String)
    (rapmap paired : Bool) (g : List BamRec) : Option String × List BamRec :=
  let EC := getReadEC exons cont (bucketGroup paired g) rapmap paired
  if EC = [] then (none, [])
  else (some (stringEC EC), [])

/-- A worker's run: the list of EC strings it increments in the TCC matrix (in
order) and the records it appends to the unmatched-output sink. -/
def readSAMHelpRun (all_same rapmap paired : Bool)
    (exons : List (String × List Exon)) (cont : List String)
    (recs : List BamRec) (start stop : Nat) : List String × List BamRec :=
  let gs := workerGroups (canonKey all_same) recs start stop
  (gs.filterMap fun g => (handleGroup exons cont rapmap paired g).1,
   (gs.map fun g => (handleGroup exons cont rapmap paired g).2).flatten)

theorem handleGroup_sink_nil (exons : List (String × List Exon)) (cont : List String)
    (rapmap paired : Bool) (g : List BamRec) :
    (handleGroup exons cont rapmap paired g).2 = [] := by
  rw [handleGroup]
  split <;> rfl

/-- C2: a worker never appends anything to the unmatched-output sink.  The
source opens the sink for append (sam_io.cpp 438-442) and computes the empty
read EC, but the `EC.size() == 0` branch (sam_io.cpp 508-510) contains only the
comment `/* Deal with unmapped output */`; the claimed append never happens,
for any file contents, shard, or mode. -/
theorem readSAMHelp_unmatched_sink_empty (all_same rapmap paired : Bool)
    (exons : List (String × List Exon)) (cont : List String)
    (recs : List BamRec) (start stop : Nat) :
    (readSAMHelpRun all_same rapmap paired exons cont recs start stop).2 = [] := by
  rw [readSAMHelpRun]
  induction workerGroups (canonKey all_same) recs start stop with
  | nil => rfl
  | cons g gs ih =>
    simpa [handleGroup_sink_nil] using ih

/-! ## C1: the worker decomposition of the run list

`idxRuns k i l` pairs each run of `l` with the record index (relative to the
whole file) at which it starts; a worker's output is a contiguous window of
it. -/

def idxLt (c : Nat) (p : Nat × List BamRec) : Bool := decide (p.1 + 1 < c)

theorem runsBy_nil (k : BamRec → String) : runsBy k [] = [] := by
  rw [runsBy]

theorem runsBy_cons (k : BamRec → String) (r : BamRec) (rest : List BamRec) :
    runsBy k (r :: rest) =
      (r :: rest.takeWhile (fun x => k x == k r)) ::
        runsBy k (rest.dropWhile (fun x => k x == k r)) := by
  rw [runsBy]

theorem idxRuns_nil (k : BamRec → String) (i : Nat) : idxRuns k i [] = [] := by
  rw [idxRuns]

theorem idxRuns_cons (k : BamRec → String) (i : Nat) (r : BamRec) (rest : List BamRec) :
    idxRuns k i (r :: rest) =
      (i, r :: rest.takeWhile (fun x => k x == k r)) ::
        idxRuns k (i + (r :: rest.takeWhile (fun x => k x == k r)).length)
          (rest.dropWhile (fun x => k x == k r)) := by
  rw [idxRuns]

theorem processFrom_nil (k : BamRec → String) (e i : Nat) : processFrom k e [] i = [] := by
  rw [processFrom]

theorem processFrom_cons (k : BamRec → String) (e i : Nat) (r : BamRec)
    (rest : List BamRec) :
    processFrom k e (r :: rest) i =
      if i + 1 < e then
        if rest.dropWhile (fun x => k x == k r) = [] then
          (r :: rest.takeWhile (fun x => k x == k r)) ::
            List.replicate (e - (i + (r :: rest.takeWhile (fun x => k x == k r)).length + 1))
              [(r :: rest.takeWhile (fun x => k x == k r)).getLastD default]
        else
          (r :: rest.takeWhile (fun x => k x == k r)) ::
            processFrom k e (rest.dropWhile (fun x => k x == k r))
              (i + (r :: rest.takeWhile (fun x => k x == k r)).length)
      else [] := by
  rw [processFrom]

theorem idxRuns_map_snd (k : BamRec → String) :
    ∀ (n : Nat) (l : List BamRec), l.length ≤ n → ∀ i,
      (idxRuns k i l).map Prod.snd = runsBy k l := by
  intro n
  induction n with
  | zero =>
    intro l hl i
    have : l = [] := List.length_eq_zero.mp (Nat.le_zero.mp hl)
    subst this
    simp [idxRuns_nil, runsBy_nil]
  | succ n ih =>
    intro l hl i
    match l with
    | [] => simp [idxRuns_nil, runsBy_nil]
    | r :: rest =>
      rw [idxRuns_cons, runsBy_cons, List.map_cons]
      congr 1
      exact ih _ (le_trans (length_dropWhile_le _ _)
        (Nat.le_of_succ_le_succ (by simpa using hl))) _

/-- `processFrom k e l i` is the prefix of the indexed runs whose guard
`index + 1 < e` holds, provided `e ≤ i + l.length + 1` (so that no spurious
trailing singleton is generated). -/
theorem processFrom_eq_takeWhile (k : BamRec → String) (e : Nat) :
    ∀ (n : Nat) (l : List BamRec), l.length ≤ n → ∀ i, e ≤ i + l.length + 1 →
      processFrom k e l i = ((idxRuns k i l).takeWhile (idxLt e)).map Prod.snd := by
  intro n
  induction n with
  | zero =>
    intro l hl i he
    have : l = [] := List.length_eq_zero.mp (Nat.le_zero.mp hl)
    subst this
    simp [processFrom_nil, idxRuns_nil]
  | succ n ih =>
    intro l hl i he
    match l with
    | [] => simp [processFrom_nil, idxRuns_nil]
    | r :: rest =>
      by_cases hi : i + 1 < e
      · rw [idxRuns_cons]
        have htw : idxLt e (i, r :: rest.takeWhile (fun x => k x == k r)) = true := by
          simpa [idxLt] using hi
        rw [List.takeWhile_cons, if_pos htw, List.map_cons]
        by_cases hrest : rest.dropWhile (fun x => k x == k r) = []
        · rw [processFrom_cons, if_pos hi, if_pos hrest, hrest, idxRuns_nil]
          have hlen : (rest.takeWhile (fun x => k x == k r)).length = rest.length := by
            have h2 := length_takeWhile_add_dropWhile (fun x => k x == k r) rest
            rw [hrest] at h2
            simpa using h2
          have hrep :
              e - (i + (r :: rest.takeWhile (fun x => k x == k r)).length + 1) = 0 := by
            apply Nat.sub_eq_zero_of_le
            simp only [List.length_cons, hlen]
            simp only [List.length_cons] at he
            omega
          rw [hrep]
          simp
        · rw [processFrom_cons, if_pos hi, if_neg hrest]
          congr 1
          have h2 := length_takeWhile_add_dropWhile (fun x => k x == k r) rest
          apply ih _ (le_trans (length_dropWhile_le _ _)
            (Nat.le_of_succ_le_succ (by simpa using hl)))
          simp only [List.length_cons] at he ⊢
          omega
      · rw [processFrom_cons, if_neg hi, idxRuns_cons, List.takeWhile_cons,
          if_neg (by simpa [idxLt] using hi)]
        rfl

theorem getD_drop_eq {α : Type} (d : α) :
    ∀ (n : Nat) (l : List α) (m : Nat), (l.drop n).getD m d = l.getD (n + m) d := by
  intro n
  induction n with
  | zero => intro l m; simp
  | succ n ih =>
    intro l m
    match l with
    | [] => simp
    | x :: xs =>
      rw [List.drop_succ_cons, ih xs m]
      simp [Nat.succ_add, List.getD]

theorem getD_of_drop_eq_cons {α : Type} (d : α) (l : List α) (n : Nat) (x : α)
    (xs : List α) (h : l.drop n = x :: xs) : l.getD n d = x := by
  have h0 := getD_drop_eq d n l 0
  rw [h] at h0
  simpa using h0.symm

theorem lt_length_of_drop_eq_cons {α : Type} (l : List α) (n : Nat) (x : α)
    (xs : List α) (h : l.drop n = x :: xs) : n < l.length := by
  by_contra hn
  rw [List.drop_eq_nil_of_le (Nat.le_of_not_lt hn)] at h
  exact List.cons_ne_nil x xs h.symm

theorem takeWhile_getD_mem {α : Type} (p : α → Bool) (d : α) :
    ∀ (l : List α) (j : Nat), j < (l.takeWhile p).length → p (l.getD j d) = true := by
  intro l
  induction l with
  | nil => intro j hj; simp at hj
  | cons x xs ih =>
    intro j hj
    by_cases hx : p x
    · rw [List.takeWhile_cons, if_pos hx] at hj
      match j with
      | 0 => simpa using hx
      | j + 1 =>
        rw [List.getD_cons_succ]
        exact ih j (Nat.lt_of_succ_lt_succ (by simpa using hj))
    · rw [List.takeWhile_cons, if_neg hx] at hj
      simp at hj

/-- Every position inside the run that starts where `recs.drop i0` begins
carries the run head's key. -/
theorem key_const_in_run (k : BamRec → String) (recs : List BamRec) (i0 : Nat)
    (r : BamRec) (rest : List BamRec) (h : recs.drop i0 = r :: rest) (w : Nat)
    (hw : w < (r :: rest.takeWhile (fun x => k x == k r)).length) :
    k (recs.getD (i0 + w) default) = k r := by
  have hgd : recs.getD (i0 + w) default = (r :: rest).getD w default := by
    rw [← getD_drop_eq, h]
  match w with
  | 0 => rw [hgd]; simp
  | w + 1 =>
    rw [hgd, List.getD_cons_succ]
    have hp := takeWhile_getD_mem (fun x => k x == k r) default rest w
      (Nat.lt_of_succ_lt_succ (by simpa using hw))
    simpa using hp

theorem drop_run_eq (k : BamRec → String) (recs : List BamRec) (i0 : Nat)
    (r : BamRec) (rest : List BamRec) (h : recs.drop i0 = r :: rest) :
    recs.drop (i0 + (r :: rest.takeWhile (fun x => k x == k r)).length) =
      rest.dropWhile (fun x => k x == k r) := by
  have h1 : recs.drop (i0 + (r :: rest.takeWhile (fun x => k x == k r)).length) =
      (recs.drop i0).drop (r :: rest.takeWhile (fun x => k x == k r)).length := by
    rw [List.drop_drop, Nat.add_comm]
  rw [h1, h, List.length_cons, List.drop_succ_cons, ← dropWhile_eq_drop_length_takeWhile]

/-- Every indexed run produced from the suffix at a run boundary starts at a
run boundary of the whole record list: its index is in range and either `0` or
a position where the key changes. -/
theorem idxRuns_boundary (k : BamRec → String) (recs : List BamRec) :
    ∀ (n : Nat) (i0 : Nat), (recs.drop i0).length ≤ n →
      (recs.drop i0 ≠ [] →
        (i0 = 0 ∨ k (recs.getD (i0 - 1) default) ≠ k (recs.getD i0 default))) →
      ∀ x ∈ idxRuns k i0 (recs.drop i0),
        i0 ≤ x.1 ∧ x.1 < recs.length ∧
          (x.1 = 0 ∨ k (recs.getD (x.1 - 1) default) ≠ k (recs.getD x.1 default)) := by
  intro n
  induction n with
  | zero =>
    intro i0 hlen _ x hx
    rw [List.length_eq_zero.mp (Nat.le_zero.mp hlen), idxRuns_nil] at hx
    simp at hx
  | succ n ih =>
    intro i0 hlen hb x hx
    cases h : recs.drop i0 with
    | nil => rw [h, idxRuns_nil] at hx; simp at hx
    | cons r rest =>
      rw [h, idxRuns_cons] at hx
      rcases List.mem_cons.mp hx with hx | hx
      · subst hx
        exact ⟨Nat.le_refl _, lt_length_of_drop_eq_cons recs i0 r rest h,
          hb (by rw [h]; exact List.cons_ne_nil r rest)⟩
      · set run := r :: rest.takeWhile (fun x => k x == k r) with hrun
        have hdropnext := drop_run_eq k recs i0 r rest h
        have hlen2 : (recs.drop (i0 + run.length)).length ≤ n := by
          rw [hdropnext]
          have h3 : rest.length + 1 ≤ n + 1 := by
            have := congrArg List.length h
            simp only [List.length_cons] at this
            omega
          exact le_trans (length_dropWhile_le _ _) (Nat.le_of_succ_le_succ h3)
        have hbnext : recs.drop (i0 + run.length) ≠ [] →
            (i0 + run.length = 0 ∨
              k (recs.getD (i0 + run.length - 1) default) ≠
                k (recs.getD (i0 + run.length) default)) := by
          intro hne
          right
          cases hdrop2 : recs.drop (i0 + run.length) with
          | nil => exact absurd hdrop2 hne
          | cons y ys =>
            have hyk : k (recs.getD (i0 + run.length) default) = k y :=
              congrArg k (getD_of_drop_eq_cons default recs _ y ys hdrop2)
            have hyfalse : (k y == k r) = false :=
              head_dropWhile_false (fun x => k x == k r) rest y ys
                (by rw [← hdropnext, hdrop2])
            have hky : k y ≠ k r := by
              intro hcontra
              rw [hcontra] at hyfalse
              simp at hyfalse
            have hprev : k (recs.getD (i0 + run.length - 1) default) = k r := by
              have h4 : i0 + run.length - 1 = i0 + (run.length - 1) := by
                have : 1 ≤ run.length := by rw [hrun]; simp [Nat.succ_le_succ]
                omega
              rw [h4]
              exact key_const_in_run k recs i0 r rest h (run.length - 1)
                (by rw [hrun]; simp)
            rw [hprev, hyk]
            exact fun hcontra => hky hcontra.symm
        have := ih (i0 + run.length) hlen2 hbnext x (by rw [hdropnext]; exact hx)
        exact ⟨le_trans (Nat.le_add_right _ _) this.1, this.2.1, this.2.2⟩

/-- Dropping the indexed runs that start before a run boundary `m` yields the
indexed runs of the suffix `recs.drop m`. -/
theorem idxRuns_dropWhile_boundary (k : BamRec → String) (recs : List BamRec) :
    ∀ (n : Nat) (i0 m : Nat), (recs.drop i0).length ≤ n → i0 ≤ m → m < recs.length →
      (m = i0 ∨ k (recs.getD (m - 1) default) ≠ k (recs.getD m default)) →
      (idxRuns k i0 (recs.drop i0)).dropWhile (fun p => decide (p.1 < m)) =
        idxRuns k m (recs.drop m) := by
  intro n
  induction n with
  | zero =>
    intro i0 m hlen him hm _
    have h0 : recs.drop i0 = [] := List.length_eq_zero.mp (Nat.le_zero.mp hlen)
    have : recs.length ≤ i0 := by
      by_contra hc
      have := List.drop_eq_nil_iff_le.mp h0
      omega
    omega
  | succ n ih =>
    intro i0 m hlen him hm hbm
    cases h : recs.drop i0 with
    | nil =>
      have : recs.length ≤ i0 := List.drop_eq_nil_iff_le.mp h
      omega
    | cons r rest =>
      by_cases hmi : m = i0
      · rw [idxRuns_cons, List.dropWhile_cons, if_neg (by simp [hmi]), ← idxRuns_cons,
          ← h, hmi]
      · rw [idxRuns_cons]
        have hmgt : i0 < m := Nat.lt_of_le_of_ne him fun hcontra => hmi hcontra.symm
        rw [List.dropWhile_cons, if_pos (by simpa using hmgt)]
        have hdropnext := drop_run_eq k recs i0 r rest h
        have hkeydiff : k (recs.getD (m - 1) default) ≠ k (recs.getD m default) := by
          rcases hbm with hbm | hbm
          · exact absurd hbm hmi
          · exact hbm
        have hmi1 : i0 + (r :: rest.takeWhile (fun x => k x == k r)).length ≤ m := by
          by_contra hc
          have hmlt : m < i0 + (r :: rest.takeWhile (fun x => k x == k r)).length :=
            Nat.lt_of_not_le hc
          have hk1 : k (recs.getD m default) = k r := by
            have hm2 : m = i0 + (m - i0) := by omega
            rw [hm2]
            exact key_const_in_run k recs i0 r rest h (m - i0) (by omega)
          have hk2 : k (recs.getD (m - 1) default) = k r := by
            have hm3 : m - 1 = i0 + (m - 1 - i0) := by omega
            rw [hm3]
            exact key_const_in_run k recs i0 r rest h (m - 1 - i0) (by omega)
          exact hkeydiff (hk2.trans hk1.symm)
        have hlen2 :
            (recs.drop (i0 + (r :: rest.takeWhile (fun x => k x == k r)).length)).length
              ≤ n := by
          rw [hdropnext]
          have h3 := congrArg List.length h
          simp only [List.length_cons] at h3
          exact le_trans (length_dropWhile_le _ _) (by omega)
        rw [← hdropnext]
        exact ih (i0 + (r :: rest.takeWhile (fun x => k x == k r)).length) m hlen2 hmi1 hm
          (Or.inr hkeydiff)

theorem getD_mem {α : Type} (d : α) :
    ∀ (l : List α) (j : Nat), j < l.length → l.getD j d ∈ l := by
  intro l
  induction l with
  | nil => intro j hj; simp at hj
  | cons x xs ih =>
    intro j hj
    match j with
    | 0 => simp
    | j + 1 =>
      rw [List.getD_cons_succ]
      exact List.mem_cons_of_mem x (ih j (Nat.lt_of_succ_lt_succ (by simpa using hj)))

theorem mem_of_mem_dropWhile {α : Type} (p : α → Bool) :
    ∀ (l : List α) (x : α), x ∈ l.dropWhile p → x ∈ l := by
  intro l
  induction l with
  | nil => intro x hx; simpa using hx
  | cons y ys ih =>
    intro x hx
    by_cases hy : p y
    · rw [List.dropWhile_cons, if_pos hy] at hx
      exact List.mem_cons_of_mem y (ih x hx)
    · rw [List.dropWhile_cons, if_neg hy] at hx
      exact hx

theorem dropWhile_false_id {α : Type} (p : α → Bool) (l : List α)
    (h : ∀ x, p x = false) : l.dropWhile p = l := by
  cases l with
  | nil => rfl
  | cons x xs => rw [List.dropWhile_cons, if_neg (by simp [h x])]

theorem workerGroups_skip_unfold (k : BamRec → String) (recs : List BamRec) (s e : Nat)
    (h1 : ¬(e ≤ s + 1)) (h2 : s ≠ 0) (h3 : s ≠ 1) :
    workerGroups k recs s e =
      if (recs.drop (s - 1)).dropWhile
          (fun x => k x == k (recs.getD (s - 2) default)) = [] then
        List.replicate (e - recs.length) [recs.getLastD default]
      else
        processFrom k e
          ((recs.drop (s - 1)).dropWhile (fun x => k x == k (recs.getD (s - 2) default)))
          (s - 1 +
            ((recs.drop (s - 1)).takeWhile
              (fun x => k x == k (recs.getD (s - 2) default))).length) := by
  rw [workerGroups, if_neg h1, if_neg h2]
  simp only [if_neg h3]

/-- Worker with `start = 0`: its output is the prefix of the indexed runs whose
start index satisfies the guard. -/
theorem workerGroups_zero (k : BamRec → String) (recs : List BamRec) (e : Nat)
    (h1 : ¬(e ≤ 1)) (heL : e ≤ recs.length + 1) :
    workerGroups k recs 0 e =
      ((idxRuns k 0 recs).takeWhile (idxLt e)).map Prod.snd := by
  rw [workerGroups, if_neg (by simpa using h1), if_pos rfl]
  exact processFrom_eq_takeWhile k e recs.length recs (Nat.le_refl _) 0 (by omega)

/-- Worker with `start = s ≥ 2`: provided the boundary skip does not run to the
end of the file (or the worker's own window ends before the file does), its
output is exactly the window of indexed runs that start at or after `s - 1` and
whose start index satisfies the guard `idxLt e`. -/
theorem workerGroups_window (k : BamRec → String) (recs : List BamRec) (s e : Nat)
    (h2 : 2 ≤ s) (hsL : s ≤ recs.length) (hse : s + 2 ≤ e) (heL : e ≤ recs.length + 1)
    (hok : (recs.drop (s - 1)).dropWhile
        (fun x => k x == k (recs.getD (s - 2) default)) ≠ [] ∨ e ≤ recs.length) :
    workerGroups k recs s e =
      (((idxRuns k 0 recs).dropWhile (idxLt s)).takeWhile (idxLt e)).map Prod.snd := by
  have hunf := workerGroups_skip_unfold k recs s e (by omega) (by omega) (by omega)
  have hkeyrange : ∀ i, s - 1 ≤ i →
      i < s - 1 + ((recs.drop (s - 1)).takeWhile
        (fun x => k x == k (recs.getD (s - 2) default))).length →
      k (recs.getD i default) = k (recs.getD (s - 2) default) := by
    intro i hi1 hi2
    have hw : i = (s - 1) + (i - (s - 1)) := by omega
    rw [hw, ← getD_drop_eq]
    have := takeWhile_getD_mem (fun x => k x == k (recs.getD (s - 2) default)) default
      (recs.drop (s - 1)) (i - (s - 1)) (by omega)
    simpa using this
  have hkeylow : ∀ i, s - 2 ≤ i →
      i < s - 1 + ((recs.drop (s - 1)).takeWhile
        (fun x => k x == k (recs.getD (s - 2) default))).length →
      k (recs.getD i default) = k (recs.getD (s - 2) default) := by
    intro i hi1 hi2
    by_cases hi : s - 1 ≤ i
    · exact hkeyrange i hi hi2
    · have : i = s - 2 := by omega
      rw [this]
  cases hrest : (recs.drop (s - 1)).dropWhile
      (fun x => k x == k (recs.getD (s - 2) default)) with
  | nil =>
    have heL2 : e ≤ recs.length := by
      rcases hok with hok | hok
      · exact absurd hrest hok
      · exact hok
    rw [hunf, if_pos hrest, Nat.sub_eq_zero_of_le heL2, List.replicate_zero]
    have hall : ∀ x ∈ idxRuns k 0 (recs.drop 0), idxLt s x = true := by
      intro x hx
      have hbd := idxRuns_boundary k recs recs.length 0 (by simp)
        (fun _ => Or.inl rfl) x hx
      by_contra hc
      have hxge : s - 1 ≤ x.1 := by
        simp only [idxLt, decide_eq_true_eq] at hc
        omega
      have hxlt : x.1 < recs.length := hbd.2.1
      have halltail : ∀ y ∈ recs.drop (s - 1),
          (fun x => k x == k (recs.getD (s - 2) default)) y = true :=
        List.dropWhile_eq_nil_iff.mp hrest
      have hktail : ∀ i, s - 1 ≤ i → i < recs.length →
          k (recs.getD i default) = k (recs.getD (s - 2) default) := by
        intro i hi1 hi2
        have hw : i = (s - 1) + (i - (s - 1)) := by omega
        have hmem : (recs.drop (s - 1)).getD (i - (s - 1)) default ∈ recs.drop (s - 1) := by
          apply getD_mem
          rw [List.length_drop]
          omega
        have := halltail _ hmem
        rw [hw, ← getD_drop_eq]
        simpa using this
      rcases hbd.2.2 with hx0 | hxd
      · omega
      · apply hxd
        have hk2 : k (recs.getD x.1 default) = k (recs.getD (s - 2) default) :=
          hktail x.1 hxge hxlt
        have hk1 : k (recs.getD (x.1 - 1) default) = k (recs.getD (s - 2) default) := by
          by_cases hge : s - 1 ≤ x.1 - 1
          · exact hktail (x.1 - 1) hge (by omega)
          · have : x.1 - 1 = s - 2 := by omega
            rw [this]
        rw [hk1, hk2]
    rw [show (0 : Nat) = 0 from rfl] at hall
    have hdw : (idxRuns k 0 recs).dropWhile (idxLt s) = [] := by
      apply dropWhile_nil_of_all
      intro x hx
      exact hall x (by simpa using hx)
    rw [hdw]
    simp
  | cons y ys =>
    have hm := hrest
    rw [dropWhile_eq_drop_length_takeWhile, List.drop_drop] at hm
    have hmlt : s - 1 + ((recs.drop (s - 1)).takeWhile
        (fun x => k x == k (recs.getD (s - 2) default))).length < recs.length :=
      lt_length_of_drop_eq_cons recs _ y ys hm
    have hkm : k (recs.getD (s - 1 + ((recs.drop (s - 1)).takeWhile
        (fun x => k x == k (recs.getD (s - 2) default))).length) default) = k y :=
      congrArg k (getD_of_drop_eq_cons default recs _ y ys hm)
    have hyk : (k y == k (recs.getD (s - 2) default)) = false :=
      head_dropWhile_false _ (recs.drop (s - 1)) y ys hrest
    have hyne : k y ≠ k (recs.getD (s - 2) default) := by
      intro hcontra
      rw [hcontra] at hyk
      simp at hyk
    have hbdm : k (recs.getD (s - 1 + ((recs.drop (s - 1)).takeWhile
          (fun x => k x == k (recs.getD (s - 2) default))).length - 1) default) ≠
        k (recs.getD (s - 1 + ((recs.drop (s - 1)).takeWhile
          (fun x => k x == k (recs.getD (s - 2) default))).length) default) := by
      rw [hkm]
      have hprev : k (recs.getD (s - 1 + ((recs.drop (s - 1)).takeWhile
          (fun x => k x == k (recs.getD (s - 2) default))).length - 1) default) =
          k (recs.getD (s - 2) default) := by
        apply hkeylow
        · omega
        · omega
      rw [hprev]
      exact fun hcontra => hyne hcontra.symm
    have hD4 := idxRuns_dropWhile_boundary k recs recs.length 0
      (s - 1 + ((recs.drop (s - 1)).takeWhile
        (fun x => k x == k (recs.getD (s - 2) default))).length)
      (by simp) (Nat.zero_le _) hmlt (Or.inr hbdm)
    have hcongr : (idxRuns k 0 recs).dropWhile (idxLt s) =
        (idxRuns k 0 recs).dropWhile (fun p => decide (p.1 <
          s - 1 + ((recs.drop (s - 1)).takeWhile
            (fun x => k x == k (recs.getD (s - 2) default))).length)) := by
      apply dropWhile_congr_mem
      intro x hx
      have hbd := idxRuns_boundary k recs recs.length 0 (by simp)
        (fun _ => Or.inl rfl) x (by simpa using hx)
      simp only [idxLt, decide_eq_true_eq, decide_eq_decide]
      constructor
      · intro hlt
        omega
      · intro hlt
        by_contra hc
        have hxge : s - 1 ≤ x.1 := by omega
        rcases hbd.2.2 with hx0 | hxd
        · omega
        · apply hxd
          have hk2 : k (recs.getD x.1 default) = k (recs.getD (s - 2) default) :=
            hkeyrange x.1 hxge hlt
          have hk1 : k (recs.getD (x.1 - 1) default) = k (recs.getD (s - 2) default) := by
            apply hkeylow
            · omega
            · omega
          rw [hk1, hk2]
    have hdropm : recs.drop (s - 1 + ((recs.drop (s - 1)).takeWhile
        (fun x => k x == k (recs.getD (s - 2) default))).length) =
        (recs.drop (s - 1)).dropWhile
          (fun x => k x == k (recs.getD (s - 2) default)) := by
      rw [dropWhile_eq_drop_length_takeWhile, List.drop_drop]
    rw [hunf, if_neg (by rw [hrest]; exact List.cons_ne_nil y ys)]
    have hPF := processFrom_eq_takeWhile k e recs.length
      ((recs.drop (s - 1)).dropWhile (fun x => k x == k (recs.getD (s - 2) default)))
      (le_trans (length_dropWhile_le _ _) (by rw [List.length_drop]; omega))
      (s - 1 + ((recs.drop (s - 1)).takeWhile
        (fun x => k x == k (recs.getD (s - 2) default))).length)
      (by
        rw [← hdropm, List.length_drop]
        omega)
    rw [List.drop_zero] at hD4
    rw [hPF, hcongr, ← hdropm, hD4]

theorem idxRuns_lt_length (k : BamRec → String) (recs : List BamRec) :
    ∀ x ∈ idxRuns k 0 recs, x.1 < recs.length := by
  intro x hx
  exact (idxRuns_boundary k recs recs.length 0 (by simp) (fun _ => Or.inl rfl) x
    (by simpa using hx)).2.1

/-- Adjacent worker windows over the indexed runs telescope: concatenating the
windows `[q·a, q·(a+1)), …, [q·(a+b-1), q·(a+b))` and the final unbounded
window recovers everything from `q·a` on. -/
theorem telescope_windows (IR : List (Nat × List BamRec)) (q : Nat)
    (gg : Nat → List (List BamRec)) :
    ∀ (b a : Nat),
      (∀ j, a ≤ j → j < a + b →
        gg j = ((IR.dropWhile (idxLt (q * j))).takeWhile
          (idxLt (q * (j + 1)))).map Prod.snd) →
      ((List.range' a b).map gg).flatten ++
          (IR.dropWhile (idxLt (q * (a + b)))).map Prod.snd =
        (IR.dropWhile (idxLt (q * a))).map Prod.snd := by
  intro b
  induction b with
  | zero => intro a h; simp
  | succ b ih =>
    intro a h
    rw [List.range'_succ, List.map_cons, List.flatten_cons,
      h a (Nat.le_refl a) (by omega), List.append_assoc]
    have harg : a + (b + 1) = (a + 1) + b := by omega
    rw [harg, ih (a + 1) fun j hj1 hj2 => h j (by omega) (by omega)]
    have hsub : IR.dropWhile (idxLt (q * (a + 1))) =
        (IR.dropWhile (idxLt (q * a))).dropWhile (idxLt (q * (a + 1))) := by
      refine (dropWhile_dropWhile_of_imp _ _ IR fun x hx => ?_).symm
      simp only [idxLt, decide_eq_true_eq] at hx ⊢
      have hmul : q * a ≤ q * (a + 1) := Nat.mul_le_mul_left q (Nat.le_succ a)
      omega
    rw [hsub, ← List.map_append, List.takeWhile_append_dropWhile]

/-- The shard list written uniformly: worker `j` owns
`[lines/N * j, lines/N * (j+1))`, except that the last worker's upper bound is
`lines + 1`. -/
theorem shards_eq_range (lines N : Nat) (hN : 1 ≤ N) :
    shards lines N = (List.range N).map
      (fun j => (lines / N * j,
        if j = N - 1 then lines + 1 else lines / N * (j + 1))) := by
  have hsplit : List.range N = List.range (N - 1) ++ [N - 1] := by
    have h1 : N = (N - 1) + 1 := by omega
    conv_lhs => rw [h1]
    rw [List.range_succ]
  rw [shards, hsplit, List.map_append]
  congr 1
  · apply List.map_congr_left
    intro j hj
    have hj2 : j < N - 1 := List.mem_range.mp hj
    rw [if_neg (by omega)]
  · simp

/-- C1 (amended): the shard ranges launched by `readSAM` are contiguous
(worker `j` owns `[L/N·j, L/N·(j+1))`, the last worker `[L/N·(N-1), L+1)`),
and — provided `N = 1`, or every non-final shard holds at least two records
(`L/N ≥ 2`) and the final worker's boundary skip does not consume the rest of
the file — the read groups processed across all `N` workers, in order, are
exactly the read groups of the file, each processed by exactly one worker
exactly once. -/
theorem readSAM_shards_cover_and_groups_once (all_same : Bool) (recs : List BamRec)
    (N : Nat) (hN : 1 ≤ N)
    (hq : N = 1 ∨ 2 ≤ recs.length / N)
    (hskip : N = 1 ∨
      (recs.drop (recs.length / N * (N - 1) - 1)).dropWhile
        (fun x => canonKey all_same x ==
          canonKey all_same (recs.getD (recs.length / N * (N - 1) - 2) default)) ≠ []) :
    shards recs.length N = (List.range N).map
        (fun j => (recs.length / N * j,
          if j = N - 1 then recs.length + 1 else recs.length / N * (j + 1))) ∧
      readSAMGroups all_same recs recs.length N = runsBy (canonKey all_same) recs := by
  refine ⟨shards_eq_range recs.length N hN, ?_⟩
  have hmap2 : (idxRuns (canonKey all_same) 0 recs).map Prod.snd =
      runsBy (canonKey all_same) recs :=
    idxRuns_map_snd (canonKey all_same) recs.length recs (Nat.le_refl _) 0
  have hsplit : readSAMGroups all_same recs recs.length N =
      ((List.range' 0 (N - 1)).map
        (fun j => workerGroups (canonKey all_same) recs
          (recs.length / N * j) (recs.length / N * (j + 1)))).flatten ++
      workerGroups (canonKey all_same) recs
        (recs.length / N * (N - 1)) (recs.length + 1) := by
    rw [readSAMGroups, shards, List.map_append, List.flatten_append, List.map_map,
      List.range_eq_range']
    simp only [List.map_cons, List.map_nil, List.flatten_cons, List.flatten_nil,
      List.append_nil]
    rfl
  by_cases hN1 : N = 1
  · subst hN1
    rw [hsplit]
    simp only [Nat.sub_self, List.range'_zero, List.map_nil, List.flatten_nil,
      List.nil_append, Nat.mul_zero, Nat.zero_mul]
    by_cases hL0 : recs.length = 0
    · have hnil : recs = [] := List.length_eq_zero.mp hL0
      rw [workerGroups, if_pos (by omega)]
      rw [hnil, runsBy_nil]
    · rw [workerGroups_zero (canonKey all_same) recs (recs.length + 1)
        (by omega) (by omega)]
      rw [takeWhile_all_of_all _ _ fun x hx => by
        have := idxRuns_lt_length (canonKey all_same) recs x hx
        simp only [idxLt, decide_eq_true_eq]
        omega]
      exact hmap2
  · have hN2 : 2 ≤ N := by omega
    have hqge : 2 ≤ recs.length / N := by
      rcases hq with h | h
      · exact absurd h hN1
      · exact h
    have hqN : recs.length / N * N ≤ recs.length := Nat.div_mul_le_self recs.length N
    have hqN1 : recs.length / N * (N - 1) + recs.length / N = recs.length / N * N := by
      have h1 : (N - 1) + 1 = N := by omega
      rw [← h1, Nat.mul_succ, h1]
    have hskip2 : (recs.drop (recs.length / N * (N - 1) - 1)).dropWhile
        (fun x => canonKey all_same x ==
          canonKey all_same (recs.getD (recs.length / N * (N - 1) - 2) default)) ≠ [] := by
      rcases hskip with hskip | hskip
      · exact absurd hskip hN1
      · exact hskip
    have hs2 : 2 ≤ recs.length / N * (N - 1) :=
      le_trans hqge (Nat.le_mul_of_pos_right (recs.length / N) (by omega))
    have hlast : workerGroups (canonKey all_same) recs
        (recs.length / N * (N - 1)) (recs.length + 1) =
        ((idxRuns (canonKey all_same) 0 recs).dropWhile
          (idxLt (recs.length / N * (N - 1)))).map Prod.snd := by
      rw [workerGroups_window (canonKey all_same) recs
        (recs.length / N * (N - 1)) (recs.length + 1)
        hs2 (by omega) (by omega) (by omega) (Or.inl hskip2)]
      rw [takeWhile_all_of_all _ _ fun x hx => by
        have := idxRuns_lt_length (canonKey all_same) recs x
          (mem_of_mem_dropWhile _ _ x hx)
        simp only [idxLt, decide_eq_true_eq]
        omega]
    have hmid : ∀ j, 0 ≤ j → j < 0 + (N - 1) →
        workerGroups (canonKey all_same) recs
          (recs.length / N * j) (recs.length / N * (j + 1)) =
          (((idxRuns (canonKey all_same) 0 recs).dropWhile
            (idxLt (recs.length / N * j))).takeWhile
              (idxLt (recs.length / N * (j + 1)))).map Prod.snd := by
      intro j _ hj
      have hj2 : j < N - 1 := by omega
      have hj3 : recs.length / N * (j + 1) ≤ recs.length := by
        have h4 : recs.length / N * (j + 1) ≤ recs.length / N * (N - 1) :=
          Nat.mul_le_mul_left (recs.length / N) (by omega)
        omega
      by_cases hj0 : j = 0
      · subst hj0
        rw [Nat.mul_zero, Nat.mul_one]
        rw [workerGroups_zero (canonKey all_same) recs (recs.length / N)
          (by omega) (by omega)]
        rw [dropWhile_false_id (idxLt 0) _ fun x => by simp [idxLt]]
      · have hj1 : 1 ≤ j := by omega
        have hjs2 : 2 ≤ recs.length / N * j :=
          le_trans hqge (Nat.le_mul_of_pos_right (recs.length / N) (by omega))
        have hjsucc : recs.length / N * j + recs.length / N =
            recs.length / N * (j + 1) := by
          rw [Nat.mul_succ]
        rw [workerGroups_window (canonKey all_same) recs
          (recs.length / N * j) (recs.length / N * (j + 1))
          hjs2
          (by
            have h4 : recs.length / N * j ≤ recs.length / N * (N - 1) :=
              Nat.mul_le_mul_left (recs.length / N) (by omega)
            omega)
          (by omega) (by omega) (Or.inr hj3)]
    rw [hsplit, hlast]
    have htel := telescope_windows (idxRuns (canonKey all_same) 0 recs)
      (recs.length / N)
      (fun j => workerGroups (canonKey all_same) recs
        (recs.length / N * j) (recs.length / N * (j + 1))) (N - 1) 0 hmid
    simp only [Nat.zero_add] at htel
    rw [htel]
    rw [dropWhile_false_id (idxLt (recs.length / N * 0)) _ fun x => by simp [idxLt]]
    exact hmap2

/-- A minimal record with only the canonical-key field set; used for concrete
worker-sharding inputs. -/
def mkRec (s : String) : BamRec :=
  { qName := s, flagUnmapped := false, flagRC := false, flagLast := false,
    rID := 0, rNextId := 0, beginPos := 0, cigar := [] }

def recsC1w : List BamRec :=
  [mkRec "a", mkRec "a", mkRec "b", mkRec "b", mkRec "c", mkRec "c"]

/-- C1 witness: the amended statement evaluated on a six-record file with three
read groups and two workers (`L/N = 3 ≥ 2`, and the last worker's skip stops at
the key change from `a` to `b`). -/
theorem readSAM_shards_cover_witness :
    shards recsC1w.length 2 = (List.range 2).map
        (fun j => (recsC1w.length / 2 * j,
          if j = 2 - 1 then recsC1w.length + 1 else recsC1w.length / 2 * (j + 1))) ∧
      readSAMGroups true recsC1w recsC1w.length 2 = runsBy (canonKey true) recsC1w :=
  readSAM_shards_cover_and_groups_once true recsC1w 2 (by decide)
    (Or.inr (by decide)) (Or.inr (by decide))

def recsC1c : List BamRec :=
  [mkRec "a", mkRec "b", mkRec "c", mkRec "d", mkRec "e"]

/-- C1 counterexample: a five-record file of five distinct read groups read
with `N = 3` workers.  Each shard nominally holds `L/N = 1` record, so workers
0 and 1 bail out (`end - start <= 1`), and worker 2's boundary skip begins from
the key of record 0 — the group `[a]` of record 0 is processed by no worker,
refuting the claim that every read group is processed exactly once for every
`N ≥ 1`. -/
theorem readSAM_small_shard_drops_group :
    [mkRec "a"] ∈ runsBy (canonKey true) recsC1c ∧
      (readSAMGroups true recsC1c recsC1c.length 3).count [mkRec "a"] = 0 := by
  have hruns : runsBy (canonKey true) recsC1c =
      [[mkRec "a"], [mkRec "b"], [mkRec "c"], [mkRec "d"], [mkRec "e"]] := by
    simp [recsC1c, mkRec, runsBy_cons, runsBy_nil, canonKey]
  have hgroups : readSAMGroups true recsC1c recsC1c.length 3 =
      [[mkRec "b"], [mkRec "c"], [mkRec "d"], [mkRec "e"]] := by
    simp [readSAMGroups, shards, workerGroups, processFrom_cons, processFrom_nil,
      recsC1c, mkRec, canonKey]
  constructor
  · rw [hruns]
    simp
  · rw [hgroups]
    decide

/-! ## GTF transcript numbering (`kallisto_util.cpp`)

`get_sequence` (from `file_io.cpp`, not under `src/`) parses one GTF line into
a `Sequence`; `kallisto_util.cpp` only reads its `seqname`, `feature`, `id`
and `start` fields, so a file is modelled as the list of its parsed sequences
(each line is lower-cased before parsing, so all fields are lower case).
`transcript_count` is a C++ `uint64_t` initialised to `-1`, i.e. `2^64 - 1`,
and incremented modulo `2^64`; `unordered_map::emplace` inserts only when the
key is absent, modelled on an insertion-ordered association list. -/

structure Sequence where
  seqname : String
  feature : String
  id : String
  start : Int
deriving DecidableEq, Inhabited, Repr

/-- The line filter of `get_index_to_seqid_help` (kallisto_util.cpp 46-47):
`seq.start != 0 && seq.seqname.size() != 0 && seq.feature.compare("exon") == 0`. -/
def exonFilter (s : Sequence) : Bool :=
  s.start != 0 && s.seqname != "" && s.feature == "exon"

def U64 : Nat := 2 ^ 64

def emplaceNS (m : List (Nat × String)) (key : Nat) (v : String) :
    List (Nat × String) :=
  if (m.lookup key).isSome then m else m ++ [(key, v)]

/-- The `while (getline …)` loop of `get_index_to_seqid_help`
(kallisto_util.cpp 40-61): on each exon line, a new transcript index is
allocated only when the current `(seqname, transcript_id)` pair differs from
the previous one. -/
def seqidGo : String → String → Nat → List (Nat × String) → List Sequence →
    Nat × List (Nat × String)
  | _, _, count, m, [] => (count, m)
  | ps, pid, count, m, s :: rest =>
    if exonFilter s then
      if ps != s.seqname || pid != s.id then
        seqidGo s.seqname s.id ((count + 1) % U64)
          (emplaceNS m ((count + 1) % U64) s.id) rest
      else
        seqidGo ps pid count (emplaceNS m count s.id) rest
    else
      seqidGo ps pid count m rest

/-- `get_index_to_seqid_help`: the per-file previous-pair state starts at
`("", "")`; `transcript_count` and the map are threaded across files. -/
def get_index_to_seqid_help (file : List Sequence) (count : Nat)
    (m : List (Nat × String)) : Nat × List (Nat × String) :=
  seqidGo "" "" count m file

/-- `get_index_to_seqid` (kallisto_util.cpp 86-103): `transcript_count` starts
at `(uint64_t) -1` and the files are processed in order. -/
def get_index_to_seqid (files : List (List Sequence)) : List (Nat × String) :=
  (files.foldl (fun acc f => get_index_to_seqid_help f acc.1 acc.2)
    (U64 - 1, [])).2

/-- The FASTA header identifier (kallisto_util.cpp 131-134): the lower-cased
line, without the leading `>`, up to (excluding) the first `.`; when no `.`
occurs, `substr(1, npos - 1)` yields the whole remainder. -/
def fastaId (line : String) : String :=
  ⟨((lower line).data.drop 1).takeWhile (fun c => c != '.')⟩

def emplaceSN (m : List (String × Nat)) (key : String) (v : Nat) :
    List (String × Nat) :=
  if (m.lookup key).isSome then m else m ++ [(key, v)]

/-- The loop of `get_id_to_kallisto_index_help` (kallisto_util.cpp 124-135):
count every `>` header and emplace its identifier. -/
def kalGo : Nat → List (String × Nat) → List String → Nat × List (String × Nat)
  | count, m, [] => (count, m)
  | count, m, l :: rest =>
    match l.data with
    | [] => kalGo count m rest
    | c :: _ =>
      if c != '>' then kalGo count m rest
      else
        kalGo ((count + 1) % U64)
          (emplaceSN m (fastaId l) ((count + 1) % U64)) rest

/-- `get_id_to_kallisto_index` (kallisto_util.cpp 159-176): returns the final
`transcript_count` (the last assigned FASTA index) together with the
identifier map. -/
def get_id_to_kallisto_index (files : List (List String)) :
    Nat × List (String × Nat) :=
  files.foldl (fun acc f => kalGo acc.1 acc.2 f) (U64 - 1, [])

def emplaceNN (m : List (Nat × Nat)) (key v : Nat) : List (Nat × Nat) :=
  if (m.lookup key).isSome then m else m ++ [(key, v)]

/-- `get_index_to_kallisto_index` (kallisto_util.cpp 196-274).  `none` models
the `index == -1` early return.  The `unordered_map` iteration over `m1` is
modelled in insertion order (the real iteration order is unspecified; the
theorems drawn from this function are insensitive to that order).  The
unfound GTF indices are then assigned `index, index + 1, …` starting at the
**final FASTA count itself** (`index` is `transcript_count`, the index of the
last FASTA entry, not one past it). -/
def get_index_to_kallisto_index (gtf : List (List Sequence))
    (transcriptome : List (List String)) : Option (List (Nat × Nat)) :=
  let m1 := get_index_to_seqid gtf
  let km := get_id_to_kallisto_index transcriptome
  if km.1 = U64 - 1 then none
  else
    let mu := m1.foldl
      (fun (acc : List (Nat × Nat) × List Nat) p =>
        match km.2.lookup p.2 with
        | some kidx => (emplaceNN acc.1 p.1 kidx, acc.2)
        | none => (acc.1, acc.2 ++ [p.1]))
      ([], [])
    some ((mu.2.foldl
      (fun (acc : List (Nat × Nat) × Nat) u =>
        (emplaceNN acc.1 u acc.2, (acc.2 + 1) % U64))
      (mu.1, km.1)).1)

def gtfC3in : List (List Sequence) :=
  [[⟨"chr1", "exon", "a", 100⟩, ⟨"chr1", "exon", "b", 150⟩]]

def fastaC3in : List (List String) := [[">a"]]

/-- C3: evaluation at the failing input.  The GTF holds transcripts `a` (GTF
index 0) and `b` (GTF index 1); the FASTA holds only `a`, so the last FASTA
index is 0.  The claim (and the spec) require the first GTF-only transcript
`b` to receive `0 + 1 = 1`; the code assigns it `index = 0`, the index of the
last FASTA transcript, colliding with `a`'s kallisto index. -/
theorem gtf_only_transcript_collides_with_last_fasta_index :
    get_index_to_kallisto_index gtfC3in fastaC3in = some [(0, 0), (1, 0)] ∧
      (get_index_to_kallisto_index gtfC3in fastaC3in).map
        (fun m => m.lookup 1) = some (some 0) ∧
      (get_id_to_kallisto_index fastaC3in).1 = 0 ∧ (0 : Nat) ≠ 0 + 1 := by
  refine ⟨by decide, by decide, by decide, by decide⟩

def gtfC7in : List (List Sequence) :=
  [[⟨"chr1", "exon", "a", 100⟩, ⟨"chr1", "exon", "b", 200⟩,
    ⟨"chr1", "exon", "a", 300⟩, ⟨"chr1", "exon", "c", 400⟩]]

/-- C7 counterexample: a GTF whose exon lines carry the transcript tuples
`a, b, a, c`.  The distinct tuples in encounter order are `a` (1st), `b`
(2nd), `c` (3rd), so the claim assigns `c` TranscriptIndex 2; but the code
allocates an index per *run* of equal consecutive tuples, so index 2 goes to
the re-encountered `a` and `c` receives 3. -/
theorem seqid_distinct_tuple_counterexample :
    get_index_to_seqid gtfC7in = [(0, "a"), (1, "b"), (2, "a"), (3, "c")] ∧
      (get_index_to_seqid gtfC7in).lookup 2 ≠ some "c" ∧
      (2, "c") ∉ get_index_to_seqid gtfC7in := by
  refine ⟨by decide, by decide, by decide⟩

def seqKey (s : Sequence) : String × String := (s.seqname, s.id)

/-- The maximal runs of consecutive exon lines with equal
`(seqname, transcript_id)`; the code allocates one transcript index per run. -/
def runsBySeq (l : List Sequence) : List (List Sequence) :=
  match l with
  | [] => []
  | r :: rest =>
    (r :: rest.takeWhile (fun x => seqKey x == seqKey r)) ::
      runsBySeq (rest.dropWhile (fun x => seqKey x == seqKey r))
termination_by l.length
decreasing_by simp only [List.length_cons]; exact Nat.lt_succ_of_le (length_dropWhile_le _ _)

/-- All runs across the files, in file order, taken over each file's filtered
exon lines (the previous-pair state resets at each file boundary, and the
first exon line of a file always differs from `("", "")` because its
`seqname` is non-empty). -/
def allRuns (files : List (List Sequence)) : List (List Sequence) :=
  (files.map fun f => runsBySeq (f.filter exonFilter)).flatten

/-- The effect of `seqidGo` summarised per run: bump the counter once and
emplace the run head's id under the new counter value. -/
def emplaceRuns (count : Nat) (m : List (Nat × String)) :
    List (List Sequence) → Nat × List (Nat × String)
  | [] => (count, m)
  | run :: rest =>
    emplaceRuns ((count + 1) % U64)
      (emplaceNS m ((count + 1) % U64) (run.headD default).id) rest

theorem runsBySeq_nil : runsBySeq [] = [] := by rw [runsBySeq]

theorem runsBySeq_cons (r : Sequence) (rest : List Sequence) :
    runsBySeq (r :: rest) =
      (r :: rest.takeWhile (fun x => seqKey x == seqKey r)) ::
        runsBySeq (rest.dropWhile (fun x => seqKey x == seqKey r)) := by
  rw [runsBySeq]

theorem seqidGo_cons (ps pid : String) (count : Nat) (m : List (Nat × String))
    (s : Sequence) (rest : List Sequence) :
    seqidGo ps pid count m (s :: rest) =
      if exonFilter s then
        if ps != s.seqname || pid != s.id then
          seqidGo s.seqname s.id ((count + 1) % U64)
            (emplaceNS m ((count + 1) % U64) s.id) rest
        else seqidGo ps pid count (emplaceNS m count s.id) rest
      else seqidGo ps pid count m rest := rfl

theorem seqidGo_filter : ∀ (l : List Sequence) (ps pid : String) (count : Nat)
    (m : List (Nat × String)),
    seqidGo ps pid count m l = seqidGo ps pid count m (l.filter exonFilter) := by
  intro l
  induction l with
  | nil => intros; rfl
  | cons s rest ih =>
    intro ps pid count m
    by_cases hs : exonFilter s
    · rw [List.filter_cons, if_pos hs, seqidGo_cons, seqidGo_cons, if_pos hs,
        if_pos hs]
      by_cases hnew : (ps != s.seqname || pid != s.id) = true
      · rw [if_pos hnew, if_pos hnew, ih]
      · rw [if_neg hnew, if_neg hnew, ih]
    · rw [List.filter_cons, if_neg hs, seqidGo_cons, if_neg hs, ih]

theorem takeWhile_mem_pred {α : Type} (p : α → Bool) :
    ∀ (l : List α) (x : α), x ∈ l.takeWhile p → p x = true := by
  intro l
  induction l with
  | nil => intro x hx; simp at hx
  | cons y ys ih =>
    intro x hx
    by_cases hy : p y
    · rw [List.takeWhile_cons, if_pos hy] at hx
      rcases List.mem_cons.mp hx with hx | hx
      · exact hx ▸ hy
      · exact ih x hx
    · rw [List.takeWhile_cons, if_neg hy] at hx
      simp at hx

theorem mem_of_mem_takeWhile {α : Type} (p : α → Bool) :
    ∀ (l : List α) (x : α), x ∈ l.takeWhile p → x ∈ l := by
  intro l
  induction l with
  | nil => intro x hx; simpa using hx
  | cons y ys ih =>
    intro x hx
    by_cases hy : p y
    · rw [List.takeWhile_cons, if_pos hy] at hx
      rcases List.mem_cons.mp hx with hx | hx
      · simp [hx]
      · exact List.mem_cons_of_mem y (ih x hx)
    · rw [List.takeWhile_cons, if_neg hy] at hx
      simp at hx

theorem lookup_append_single_self {β : Type} (m : List (Nat × β)) (key : Nat) (v : β) :
    ((m ++ [(key, v)]).lookup key).isSome = true := by
  induction m with
  | nil => simp [List.lookup]
  | cons e es ih =>
    rw [List.cons_append, List.lookup]
    by_cases he : key == e.1
    · simp [he]
    · simp only [List.lookup, he]
      simpa [Bool.not_eq_true] using ih

theorem emplaceNS_lookup_self (m : List (Nat × String)) (key : Nat) (v : String) :
    (((emplaceNS m key v).lookup key).isSome) = true := by
  rw [emplaceNS]
  by_cases h : (m.lookup key).isSome
  · rw [if_pos h]
    exact h
  · rw [if_neg h]
    exact lookup_append_single_self m key v

/-- Records of a run after its head neither allocate a new index nor change
the map: the key comparison fails and the emplace is a no-op. -/
theorem seqidGo_run_tail (rk rid : String) :
    ∀ (tw rest2 : List Sequence) (count : Nat) (m : List (Nat × String)),
      (∀ x ∈ tw, x.seqname = rk ∧ x.id = rid) → (∀ x ∈ tw, exonFilter x = true) →
      ((m.lookup count).isSome = true) →
      seqidGo rk rid count m (tw ++ rest2) = seqidGo rk rid count m rest2 := by
  intro tw
  induction tw with
  | nil => intros; rfl
  | cons x xs ih =>
    intro rest2 count m hkeys hfil hm
    obtain ⟨hx1, hx2⟩ := hkeys x (by simp)
    rw [List.cons_append, seqidGo_cons, if_pos (hfil x (by simp)),
      if_neg (by simp [hx1, hx2])]
    have hnoop : emplaceNS m count x.id = m := by
      rw [emplaceNS, if_pos hm]
    rw [hnoop]
    exact ih rest2 count m (fun y hy => hkeys y (by simp [hy]))
      (fun y hy => hfil y (by simp [hy])) hm

/-- Processing one full run from a fresh previous-pair: allocate one index,
emplace the head id, continue after the run. -/
theorem seqidGo_run (r : Sequence) (tw rest2 : List Sequence) (ps pid : String)
    (count : Nat) (m : List (Nat × String))
    (hkeys : ∀ x ∈ tw, x.seqname = r.seqname ∧ x.id = r.id)
    (hfil : ∀ x ∈ r :: tw, exonFilter x = true)
    (hnew : ¬(ps = r.seqname ∧ pid = r.id)) :
    seqidGo ps pid count m ((r :: tw) ++ rest2) =
      seqidGo r.seqname r.id ((count + 1) % U64)
        (emplaceNS m ((count + 1) % U64) r.id) rest2 := by
  rw [List.cons_append, seqidGo_cons, if_pos (hfil r (by simp)),
    if_pos (by
      rcases not_and_or.mp hnew with h | h <;> simp [bne_iff_ne, h])]
  exact seqidGo_run_tail r.seqname r.id tw rest2 ((count + 1) % U64)
    (emplaceNS m ((count + 1) % U64) r.id) hkeys
    (fun y hy => hfil y (by simp [hy]))
    (emplaceNS_lookup_self m ((count + 1) % U64) r.id)

/-- `seqidGo` on a list of exon lines whose head differs from the previous
pair is `emplaceRuns` over its runs. -/
theorem seqidGo_runs : ∀ (n : Nat) (l : List Sequence), l.length ≤ n →
    (∀ x ∈ l, exonFilter x = true) →
    ∀ (ps pid : String) (count : Nat) (m : List (Nat × String)),
      (l ≠ [] → ¬(ps = (l.headD default).seqname ∧ pid = (l.headD default).id)) →
      seqidGo ps pid count m l = emplaceRuns count m (runsBySeq l) := by
  intro n
  induction n with
  | zero =>
    intro l hl _ ps pid count m _
    rw [List.length_eq_zero.mp (Nat.le_zero.mp hl), runsBySeq_nil]
    rfl
  | succ n ih =>
    intro l hl hfil ps pid count m hnew
    match l with
    | [] => rw [runsBySeq_nil]; rfl
    | r :: rest =>
      rw [runsBySeq_cons]
      have hsplit : r :: rest =
          (r :: rest.takeWhile (fun x => seqKey x == seqKey r)) ++
            rest.dropWhile (fun x => seqKey x == seqKey r) := by
        rw [List.cons_append, List.takeWhile_append_dropWhile]
      have hkeys : ∀ x ∈ rest.takeWhile (fun x => seqKey x == seqKey r),
          x.seqname = r.seqname ∧ x.id = r.id := by
        intro x hx
        have := takeWhile_mem_pred (fun x => seqKey x == seqKey r) rest x hx
        have h2 : seqKey x = seqKey r := by simpa using this
        exact ⟨congrArg Prod.fst h2, congrArg Prod.snd h2⟩
      have hfil2 : ∀ x ∈ r :: rest.takeWhile (fun x => seqKey x == seqKey r),
          exonFilter x = true := by
        intro x hx
        rcases List.mem_cons.mp hx with hx | hx
        · exact hfil x (by simp [hx])
        · exact hfil x (by
            have := mem_of_mem_takeWhile (fun x => seqKey x == seqKey r) rest x hx
            simp [this])
      conv_lhs => rw [hsplit]
      rw [seqidGo_run r _ _ ps pid count m hkeys hfil2
        (by simpa using hnew (by simp))]
      rw [emplaceRuns]
      simp only [List.headD_cons]
      cases hdw : rest.dropWhile (fun x => seqKey x == seqKey r) with
      | nil =>
        rw [runsBySeq_nil]
        rfl
      | cons y ys =>
        have hyne : ¬(r.seqname = y.seqname ∧ r.id = y.id) := by
          have hfalse : (seqKey y == seqKey r) = false :=
            head_dropWhile_false _ rest y ys hdw
          intro hcontra
          have : seqKey y = seqKey r := by
            rw [seqKey, seqKey, hcontra.1, hcontra.2]
          rw [this] at hfalse
          simp at hfalse
        have hlen2 : (y :: ys).length ≤ n := by
          have h1 := length_dropWhile_le (fun x => seqKey x == seqKey r) rest
          rw [hdw] at h1
          simp only [List.length_cons] at hl h1 ⊢
          omega
        have hfil3 : ∀ x ∈ y :: ys, exonFilter x = true := by
          intro x hx
          rw [← hdw] at hx
          exact hfil x (by simp [mem_of_mem_dropWhile _ rest x hx])
        have := ih (y :: ys) hlen2 hfil3 r.seqname r.id ((count + 1) % U64)
          (emplaceNS m ((count + 1) % U64) r.id)
          (fun _ => by simpa using hyne)
        rw [← hdw] at this ⊢
        rw [hdw] at this ⊢
        exact this

theorem emplaceRuns_append (A B : List (List Sequence)) : ∀ (count : Nat)
    (m : List (Nat × String)),
    emplaceRuns count m (A ++ B) =
      emplaceRuns (emplaceRuns count m A).1 (emplaceRuns count m A).2 B := by
  induction A with
  | nil => intros; rfl
  | cons run rest ih =>
    intro count m
    rw [List.cons_append, emplaceRuns, ih, emplaceRuns]

/-- The whole multi-file scan is `emplaceRuns` over all runs of all files. -/
theorem get_index_to_seqid_eq_emplaceRuns (files : List (List Sequence)) :
    ∀ (count : Nat) (m : List (Nat × String)),
      files.foldl (fun acc f => get_index_to_seqid_help f acc.1 acc.2) (count, m) =
        emplaceRuns count m (allRuns files) := by
  induction files with
  | nil => intros; rfl
  | cons f fs ih =>
    intro count m
    rw [List.foldl_cons]
    have hfile : get_index_to_seqid_help f count m =
        emplaceRuns count m (runsBySeq (f.filter exonFilter)) := by
      rw [get_index_to_seqid_help, seqidGo_filter]
      apply seqidGo_runs (f.filter exonFilter).length _ (Nat.le_refl _)
        (fun x hx => (List.mem_filter.mp hx).2)
      intro hne hcontra
      have hhead : (f.filter exonFilter).headD default ∈ f.filter exonFilter := by
        cases hh : f.filter exonFilter with
        | nil => exact absurd hh hne
        | cons z zs => simp [hh]
      have hfilhead := (List.mem_filter.mp hhead).2
      have hsn : ((f.filter exonFilter).headD default).seqname ≠ "" := by
        rw [exonFilter] at hfilhead
        simp only [Bool.and_eq_true, bne_iff_ne, beq_iff_eq] at hfilhead
        exact hfilhead.1.2
      exact hsn hcontra.1.symm
    rw [allRuns, List.map_cons, List.flatten_cons, emplaceRuns_append, ← allRuns]
    have hpair : get_index_to_seqid_help f count m =
        ((get_index_to_seqid_help f count m).1, (get_index_to_seqid_help f count m).2) := rfl
    rw [hpair, ih, hfile]

theorem lookup_append_single_none {β : Type} (m : List (Nat × β)) (e : Nat × β)
    (key : Nat) (h1 : m.lookup key = none) (h2 : key ≠ e.1) :
    (m ++ [e]).lookup key = none := by
  induction m with
  | nil =>
    obtain ⟨k1, v1⟩ := e
    simp only [List.nil_append, List.lookup_cons]
    rw [beq_false_of_ne (by simpa using h2)]
    exact h1
  | cons x xs ih =>
    obtain ⟨k1, v1⟩ := x
    rw [List.cons_append, List.lookup_cons]
    rw [List.lookup_cons] at h1
    by_cases hx : (key == k1) = true
    · rw [hx] at h1
      simp at h1
    · rw [Bool.eq_false_iff.mpr hx] at h1 ⊢
      exact ih h1

/-- With fewer than `2^64` runs in total and a map whose keys are all below
`R0`, the `r`-th run (counting from `R0`) is emplaced under the fresh key `r`:
the wrap-around counter `(2^64 - 1 + R0) % 2^64` steps through
`R0, R0 + 1, …`, and every emplace appends. -/
theorem emplaceRuns_enum : ∀ (runs : List (List Sequence)) (R0 : Nat)
    (m : List (Nat × String)), R0 + runs.length ≤ U64 →
    (∀ key, R0 ≤ key → m.lookup key = none) →
    (emplaceRuns ((U64 - 1 + R0) % U64) m runs).2 =
      m ++ (runs.enumFrom R0).map (fun p => (p.1, (p.2.headD default).id)) := by
  intro runs
  induction runs with
  | nil => intro R0 m _ _; simp [emplaceRuns]
  | cons run rest ih =>
    intro R0 m hle hfresh
    have hR0lt : R0 < U64 := by
      simp only [List.length_cons] at hle
      omega
    have hstep : ((U64 - 1 + R0) % U64 + 1) % U64 = R0 := by
      have h1 : (1 : Nat) % U64 = 1 := by decide
      have h2 : (1 : Nat) ≤ U64 := by decide
      calc ((U64 - 1 + R0) % U64 + 1) % U64
          = ((U64 - 1 + R0) % U64 + 1 % U64) % U64 := by rw [h1]
        _ = (U64 - 1 + R0 + 1) % U64 := by rw [← Nat.add_mod]
        _ = (U64 + R0) % U64 := by
            have h3 : U64 - 1 + R0 + 1 = U64 + R0 := by omega
            rw [h3]
        _ = R0 % U64 := Nat.add_mod_left U64 R0
        _ = R0 := Nat.mod_eq_of_lt hR0lt
    have hstep2 : (U64 - 1 + (R0 + 1)) % U64 = R0 := by
      have h2 : (1 : Nat) ≤ U64 := by decide
      have h3 : U64 - 1 + (R0 + 1) = U64 + R0 := by omega
      rw [h3, Nat.add_mod_left]
      exact Nat.mod_eq_of_lt hR0lt
    rw [emplaceRuns, hstep]
    have hemp : emplaceNS m R0 (run.headD default).id =
        m ++ [(R0, (run.headD default).id)] := by
      rw [emplaceNS, if_neg (by rw [hfresh R0 (Nat.le_refl R0)]; simp)]
    rw [hemp]
    have hfresh2 : ∀ key, R0 + 1 ≤ key →
        (m ++ [(R0, (run.headD default).id)]).lookup key = none := by
      intro key hkey
      exact lookup_append_single_none m (R0, (run.headD default).id) key
        (hfresh key (by omega)) (by simp; omega)
    have hIH := ih (R0 + 1) (m ++ [(R0, (run.headD default).id)])
      (by simp only [List.length_cons] at hle; omega) hfresh2
    rw [hstep2] at hIH
    rw [hIH, List.append_assoc]
    congr 1

/-- C7 (amended): without a FASTA, transcript indices are allocated per
maximal run of consecutive equal `(seqname, transcript_id)` exon lines (with
the previous-pair state reset at each file boundary): provided the total
number of runs does not exceed `2^64`, the index map produced by
`get_index_to_seqid` pairs the zero-based `k`-th run with index `k` — i.e.
the `k`-th run (1-based) receives `k - 1`.  A tuple that reappears
non-consecutively starts a new run and receives a fresh, larger index, so the
claim's "k-th distinct tuple receives k - 1" fails. -/
theorem get_index_to_seqid_runs_enumeration (files : List (List Sequence))
    (h : (allRuns files).length ≤ U64) :
    get_index_to_seqid files =
      (allRuns files).enum.map (fun p => (p.1, (p.2.headD default).id)) := by
  rw [get_index_to_seqid, get_index_to_seqid_eq_emplaceRuns]
  have h0 : U64 - 1 = (U64 - 1 + 0) % U64 := by
    rw [Nat.add_zero]
    exact (Nat.mod_eq_of_lt (by decide)).symm
  rw [h0, emplaceRuns_enum (allRuns files) 0 [] (by omega) (fun key _ => rfl)]
  rw [List.nil_append, List.enum]

/-- C7 witness: the amended statement evaluated on the `a, b, a, c` GTF; the
four runs receive indices 0, 1, 2, 3 in order. -/
theorem get_index_to_seqid_runs_enumeration_witness :
    get_index_to_seqid gtfC7in =
      (allRuns gtfC7in).enum.map (fun p => (p.1, (p.2.headD default).id)) :=
  get_index_to_seqid_runs_enumeration gtfC7in (by
    have hruns : allRuns gtfC7in =
        [[⟨"chr1", "exon", "a", 100⟩], [⟨"chr1", "exon", "b", 200⟩],
         [⟨"chr1", "exon", "a", 300⟩], [⟨"chr1", "exon", "c", 400⟩]] := by
      simp [allRuns, gtfC7in, runsBySeq_cons, runsBySeq_nil, exonFilter, seqKey]
    rw [hruns]
    decide)

/-! ## External EC-order reader (`get_kallisto_ec_order`, kallisto_util.cpp 337-352) -/

def splitTab : List Char → List (List Char)
  | [] => [[]]
  | c :: rest =>
    if c = '\t' then [] :: splitTab rest
    else
      match splitTab rest with
      | [] => [[c]]
      | f :: others => (c :: f) :: others

/-- Modelled from the spec: `parse_tsv` lives in `file_io.cpp`, which is not
under `src/`; per §4.6 the file holds tab-separated lines
`row_id<TAB>ec_string`, so it splits the line at tab characters. -/
def parse_tsv (s : String) : List String :=
  (splitTab s.data).map fun l => ⟨l⟩

/-- `std::set<string>::emplace`: keep the container sorted and duplicate-free. -/
def setInsertStr : List String → String → List String
  | [], x => [x]
  | y :: rest, x =>
    if x = y then y :: rest
    else if x < y then x :: y :: rest
    else y :: setInsertStr rest x

/-- The `while (getline …)` loop: lower-case the line, split it at tabs, and
use field 1.  `line[1]` is `std::vector::operator[]` with no bounds check, so
a line with fewer than two fields is out-of-bounds (undefined behaviour),
modelled as `none`. -/
def kecGo : List String → List String → List String →
    Option (List String × List String)
  | v, s, [] => some (v, s)
  | v, s, l :: rest =>
    match (parse_tsv (lower l)).get? 1 with
    | none => none
    | some f => kecGo (v ++ [f]) (setInsertStr s f) rest

/-- `get_kallisto_ec_order`: `none` as input models an unopenable file (the
function returns 1 with `v`, `s` untouched); otherwise the lines are processed
in order and 0 is returned. -/
def get_kallisto_ec_order : Option (List String) →
    Option (Nat × List String × List String)
  | none => some (1, [], [])
  | some lines => (kecGo [] [] lines).map fun p => (0, p.1, p.2)

theorem getD_of_get?_eq_some {α : Type} (d : α) :
    ∀ (l : List α) (n : Nat) (x : α), l.get? n = some x → l.getD n d = x := by
  intro l
  induction l with
  | nil => intro n x hx; simp at hx
  | cons y ys ih =>
    intro n x hx
    match n with
    | 0 =>
      simp only [List.get?_cons_zero, Option.some_inj] at hx
      simp [hx]
    | n + 1 =>
      rw [List.getD_cons_succ]
      exact ih n x (by simpa using hx)

theorem mem_setInsertStr (x : String) :
    ∀ (s : List String) (y : String), x ∈ setInsertStr s y ↔ x = y ∨ x ∈ s := by
  intro s
  induction s with
  | nil => intro y; simp [setInsertStr]
  | cons z zs ih =>
    intro y
    rw [setInsertStr]
    by_cases h1 : y = z
    · rw [if_pos h1]
      subst h1
      constructor
      · intro h
        exact Or.inr h
      · intro h
        rcases h with h | h
        · simp [h]
        · exact h
    · rw [if_neg h1]
      by_cases h2 : y < z
      · rw [if_pos h2]
        simp only [List.mem_cons]
      · rw [if_neg h2]
        simp only [List.mem_cons, ih]
        tauto

theorem mem_foldl_setInsertStr (f : String → String) (x : String) :
    ∀ (lines : List String) (s : List String),
      x ∈ lines.foldl (fun acc l => setInsertStr acc (f l)) s ↔
        x ∈ s ∨ x ∈ lines.map f := by
  intro lines
  induction lines with
  | nil => intro s; simp
  | cons l rest ih =>
    intro s
    rw [List.foldl_cons, ih, mem_setInsertStr]
    simp only [List.map_cons, List.mem_cons]
    tauto

theorem kecGo_ok : ∀ (lines v s : List String),
    (∀ l ∈ lines, 2 ≤ (parse_tsv (lower l)).length) →
    kecGo v s lines =
      some (v ++ lines.map (fun l => (parse_tsv (lower l)).getD 1 ""),
        lines.foldl (fun acc l => setInsertStr acc ((parse_tsv (lower l)).getD 1 "")) s) := by
  intro lines
  induction lines with
  | nil => intro v s _; simp [kecGo]
  | cons l rest ih =>
    intro v s hlen
    rw [kecGo]
    cases hx : (parse_tsv (lower l)).get? 1 with
    | none =>
      have := List.get?_eq_none.mp hx
      have h2 := hlen l (by simp)
      omega
    | some f =>
      have hf : (parse_tsv (lower l)).getD 1 "" = f :=
        getD_of_get?_eq_some "" _ 1 f hx
      show kecGo (v ++ [f]) (setInsertStr s f) rest = _
      rw [ih (v ++ [f]) (setInsertStr s f) (fun x hxm => hlen x (by simp [hxm]))]
      have hx2 : (parse_tsv (lower l))[1]? = some f := by
        rw [← List.get?_eq_getElem?]
        exact hx
      simp [hx2]

theorem kecGo_bad : ∀ (lines v s : List String),
    (∃ l ∈ lines, (parse_tsv (lower l)).length < 2) →
    kecGo v s lines = none := by
  intro lines
  induction lines with
  | nil => intro v s h; simp at h
  | cons l rest ih =>
    intro v s h
    rw [kecGo]
    cases hx : (parse_tsv (lower l)).get? 1 with
    | none => rfl
    | some f =>
      have hlen : 1 < (parse_tsv (lower l)).length := by
        by_contra hc
        rw [List.get?_eq_none.mpr (by omega)] at hx
        exact Option.noConfusion hx
      rcases h with ⟨l2, hl2, hlen2⟩
      rcases List.mem_cons.mp hl2 with rfl | hl2
      · omega
      · exact ih (v ++ [f]) (setInsertStr s f) ⟨l2, hl2, hlen2⟩

/-- C10: `get_kallisto_ec_order` returns 1 when the file cannot be opened;
otherwise, when every line of the file has at least two tab-separated fields,
it returns 0, appends each line's second field (of the lower-cased line) to
`v` in file order, and inserts exactly those fields into the set `s`; and
whenever some line has fewer than two fields, the unchecked `line[1]` access
is out of bounds and the run is undefined (modelled `none`). -/
theorem get_kallisto_ec_order_spec :
    get_kallisto_ec_order none = some (1, [], []) ∧
    (∀ lines : List String, (∀ l ∈ lines, 2 ≤ (parse_tsv (lower l)).length) →
      ∃ s, get_kallisto_ec_order (some lines) =
          some (0, lines.map (fun l => (parse_tsv (lower l)).getD 1 ""), s) ∧
        ∀ x, x ∈ s ↔ x ∈ lines.map (fun l => (parse_tsv (lower l)).getD 1 "")) ∧
    (∀ lines : List String, (∃ l ∈ lines, (parse_tsv (lower l)).length < 2) →
      get_kallisto_ec_order (some lines) = none) := by
  refine ⟨rfl, ?_, ?_⟩
  · intro lines hlen
    refine ⟨lines.foldl
      (fun acc l => setInsertStr acc ((parse_tsv (lower l)).getD 1 "")) [], ?_, ?_⟩
    · rw [get_kallisto_ec_order, kecGo_ok lines [] [] hlen]
      simp
    · intro x
      rw [mem_foldl_setInsertStr]
      simp
  · intro lines hbad
    rw [get_kallisto_ec_order, kecGo_bad lines [] [] hbad]
    rfl

/-- C10 witness: the success clause evaluated on a one-line file `0<TAB>A,b`
(the second field of the lower-cased line is `a,b`), and the undefined-access
clause on a tab-less line. -/
theorem get_kallisto_ec_order_spec_witness :
    (∃ s, get_kallisto_ec_order (some ["0\tA,b"]) =
        some (0, ["0\tA,b"].map (fun l => (parse_tsv (lower l)).getD 1 ""), s) ∧
      ∀ x, x ∈ s ↔ x ∈ ["0\tA,b"].map (fun l => (parse_tsv (lower l)).getD 1 "")) ∧
    get_kallisto_ec_order (some ["no-tabs-here"]) = none := by
  constructor
  · exact get_kallisto_ec_order_spec.2.1 ["0\tA,b"] (by decide)
  · exact get_kallisto_ec_order_spec.2.2 ["no-tabs-here"] (by decide)
